import Mathlib

/-! Sliding-window rate limiter (`src/middleware.js`).

A shallow embedding of the request-rate limiter middleware and the properties of
its two functions:

* `findPreviousRequests` – the binary-search pruner over a timestamp array;
* `checkRate` – the per-client admission decision over the `requestLogs` store.

Timestamps (`Date.now()` readings) and array indices are integers, all far inside the
range where JavaScript numbers are exact; the array is a list; the module-level object
`requestLogs` is passed explicitly as a map from client keys to arrays, and each call
returns the updated map.
-/

namespace Middleware

/-! ## Configuration constants -/

/-- `const limitTimeMS = 30000;` -/
def limitTimeMS : Int := 30000

/-- `const limitNoOfRequests = 10;` -/
def limitNoOfRequests : Nat := 10

/-! ## `findPreviousRequests` -/

/-- The array read `arr[i]`: `undefined` (here `none`) outside `0 .. arr.length - 1`. -/
def readAt (arr : List Int) (i : Int) : Option Int :=
  if i < 0 then none else arr[i.toNat]?

/-- The comparison `arr[middle] > searchItem`; a comparison with `undefined` is false. -/
def greaterThan (v : Option Int) (searchItem : Int) : Bool :=
  match v with
  | some x => decide (x > searchItem)
  | none => false

/-- The call `arr.slice(start)`: a negative `start` counts from the end of the array,
clamped at the beginning. -/
def slice (arr : List Int) (start : Int) : List Int :=
  if start < 0 then arr.drop ((arr.length : Int) + start).toNat else arr.drop start.toNat

/-- The mutable variables of the search loop. -/
structure SearchState where
  left : Int
  right : Int
  leftGreater : Int
  deriving DecidableEq, Repr

/-- The midpoint `left + parseInt((right - left) / 2)`; on the halves of the integers that an
array length allows, `parseInt` truncates toward zero. -/
def middleOf (s : SearchState) : Int :=
  s.left + Int.tdiv (s.right - s.left) 2

/-- One execution of the body of `while (left <= right)`. -/
def searchStep (arr : List Int) (searchItem : Int) (s : SearchState) : SearchState :=
  let middle := middleOf s
  if greaterThan (readAt arr middle) searchItem then
    { s with leftGreater := middle, right := middle - 1 }
  else
    { s with left := middle + 1 }

/-- The loop `while (left <= right) { ... }`, run to completion from state `s`. -/
def searchLoop (arr : List Int) (searchItem : Int) (s : SearchState) : SearchState :=
  if s.left ≤ s.right then searchLoop arr searchItem (searchStep arr searchItem s) else s
termination_by (s.right + 1 - s.left).toNat
decreasing_by
  rename_i h
  have h0 : (0 : Int) ≤ s.right - s.left := by omega
  have hd : Int.tdiv (s.right - s.left) 2 = (s.right - s.left) / 2 :=
    Int.tdiv_eq_ediv h0 (by decide)
  unfold searchStep middleOf
  simp only
  split <;> simp only <;> omega

/-- The number of times the body of `while (left <= right)` is executed from state `s`, one
midpoint comparison `arr[middle] > searchItem` being made per execution. -/
def searchIterations (arr : List Int) (searchItem : Int) (s : SearchState) : Nat :=
  if s.left ≤ s.right then searchIterations arr searchItem (searchStep arr searchItem s) + 1
  else 0
termination_by (s.right + 1 - s.left).toNat
decreasing_by
  rename_i h
  have h0 : (0 : Int) ≤ s.right - s.left := by omega
  have hd : Int.tdiv (s.right - s.left) 2 = (s.right - s.left) / 2 :=
    Int.tdiv_eq_ediv h0 (by decide)
  unfold searchStep middleOf
  simp only
  split <;> simp only <;> omega

/-- The state on entry to the loop: `left = 0`, `right = arrayLength - 1`,
`leftGreater = arrayLength`. -/
def initialState (arr : List Int) : SearchState :=
  { left := 0, right := (arr.length : Int) - 1, leftGreater := (arr.length : Int) }

/-- The function `findPreviousRequests(arr, searchItem)`: binary search for the first
index holding an item greater than `searchItem`, then `arr.slice(leftGreater)`. -/
def findPreviousRequests (arr : List Int) (searchItem : Int) : List Int :=
  slice arr (searchLoop arr searchItem (initialState arr)).leftGreater

/-- The invariant of the search loop: the bounds stay inside the array, `leftGreater` is
`right + 1`, the item just before `left` (if any) is at most `searchItem`, and the item at
`leftGreater` (if any) is greater than `searchItem`. -/
def SearchInv (arr : List Int) (searchItem : Int) (s : SearchState) : Prop :=
  0 ≤ s.left ∧ s.left ≤ s.right + 1 ∧ s.right < arr.length ∧
  s.leftGreater = s.right + 1 ∧
  (s.left = 0 ∨ ∃ v, readAt arr (s.left - 1) = some v ∧ v ≤ searchItem) ∧
  (s.leftGreater = arr.length ∨ ∃ v, readAt arr s.leftGreater = some v ∧ v > searchItem)

/-! ## `checkRate` -/

/-- The store `requestLogs`: the array recorded for each client key, if any. A key is a value
returned by `requestIp.getClientIp` (an address, or `null`); the test `!requestLogs[clientIp]`
holds exactly when no array has been recorded for the key, an array being truthy even when
empty. -/
abbrev RequestLogs (K : Type) := K → Option (List Int)

/-- The initial store `const requestLogs = {};`. -/
def requestLogs {K : Type} : RequestLogs K := fun _ => none

/-- The assignment `requestLogs[clientIp] = log`. -/
def setLog {K : Type} [DecidableEq K] (logs : RequestLogs K) (clientIp : K) (log : List Int) :
    RequestLogs K :=
  fun k => if k = clientIp then some log else logs k

/-- The response sent by `res.status(code).send(body)`. -/
structure Response where
  status : Nat
  body : String
  deriving DecidableEq, Repr

/-- What one call of `checkRate` did: the store afterwards, how many times the
continuation `next` was invoked, and the response sent, if any. -/
structure CheckRateResult (K : Type) where
  requestLogs : RequestLogs K
  nextCalls : Nat
  response : Option Response

/-- The `try { ... } catch (error) { res.status(429).send(error.message) }` wrapper applied
to the completion of the body: `Except.ok` is normal completion, `Except.error message`
is a thrown `Error(message)`. -/
def catchError {K : Type} (logs : RequestLogs K) (nextCalls : Nat)
    (completion : Except String Unit) : CheckRateResult K :=
  match completion with
  | .ok _ => { requestLogs := logs, nextCalls := nextCalls, response := none }
  | .error message =>
    { requestLogs := logs, nextCalls := nextCalls, response := some ⟨429, message⟩ }

/-- The message of the error thrown when the limit is reached. -/
def limitMessage : String := "Number of requests reached limits, please try again later"

/-- The middleware `checkRate(req, res, next)`. The client key `clientIp` extracted from the
request and the clock reading `currentTimeMS` are inputs; `next` is the completion of the
continuation when it is called (`Except.ok ()` if it returns, `Except.error message` if it
throws). -/
def checkRate {K : Type} [DecidableEq K] (next : Except String Unit) (logs : RequestLogs K)
    (clientIp : K) (currentTimeMS : Int) : CheckRateResult K :=
  let maxmimumTimeMS := currentTimeMS - limitTimeMS
  match logs clientIp with
  | none =>
    catchError (setLog logs clientIp [currentTimeMS]) 1 next
  | some log =>
    let previousRequests := findPreviousRequests log maxmimumTimeMS
    let logs1 := setLog logs clientIp (previousRequests ++ [currentTimeMS])
    if previousRequests.length < limitNoOfRequests then
      catchError logs1 1 next
    else
      catchError logs1 0 (.error limitMessage)

/-- The admit/reject outcome of a call. -/
inductive Decision where
  | Admit
  | Reject
  deriving DecidableEq, Repr

/-- A call admits the request when it invoked the continuation, and rejects it otherwise. -/
def decision {K : Type} (r : CheckRateResult K) : Decision :=
  if r.nextCalls = 0 then Decision.Reject else Decision.Admit

/-- The survivors count `previousRequests.length` that `checkRate` compares with the limit
when the key is already in the store. -/
def survivorsCount (log : List Int) (currentTimeMS : Int) : Nat :=
  (findPreviousRequests log (currentTimeMS - limitTimeMS)).length

/-- The store after a sequence of calls, one per `(clientIp, currentTimeMS)` pair, in order. -/
def runLogs {K : Type} [DecidableEq K] (next : Except String Unit) (logs : RequestLogs K) :
    List (K × Int) → RequestLogs K
  | [] => logs
  | (k, t) :: rest => runLogs next (checkRate next logs k t).requestLogs rest

/-- The outcomes of a sequence of calls, each tagged with its client key, in order. -/
def runDecisions {K : Type} [DecidableEq K] (next : Except String Unit) (logs : RequestLogs K) :
    List (K × Int) → List (K × Decision)
  | [] => []
  | (k, t) :: rest =>
    (k, decision (checkRate next logs k t)) ::
      runDecisions next (checkRate next logs k t).requestLogs rest

/-- The timestamps of the requests of client `k` in a sequence of calls, in arrival order. -/
def histOf {K : Type} [DecidableEq K] (k : K) (reqs : List (K × Int)) : List Int :=
  (reqs.filter (fun r => decide (r.1 = k))).map Prod.snd

/-- The timestamps of a history that lie strictly after `latest - limitTimeMS`, where `latest`
is the last timestamp of the history; `none` for the empty history. -/
def windowOf (hist : List Int) : Option (List Int) :=
  match hist.getLast? with
  | none => none
  | some latest => some (hist.filter (fun e => decide (e > latest - limitTimeMS)))

/-- The timestamps of the admitted requests of a run, given the timestamps of all requests and
their outcomes, in order. -/
def admittedTimes {K : Type} (ts : List Int) (ds : List (K × Decision)) : List Int :=
  ((ts.zip ds).filter (fun p => decide (p.2.2 = Decision.Admit))).map Prod.fst

/-! ## The search loop -/

/-- The midpoint of a non-empty interval lies inside it. -/
theorem middleOf_bounds (s : SearchState) (h : s.left ≤ s.right) :
    s.left ≤ middleOf s ∧ middleOf s ≤ s.right := by
  unfold middleOf
  have h0 : (0 : Int) ≤ s.right - s.left := by omega
  rw [Int.tdiv_eq_ediv h0 (by decide)]
  omega

/-- Each iteration strictly shrinks the interval `[left, right]`. -/
theorem searchStep_measure (arr : List Int) (searchItem : Int) (s : SearchState)
    (h : s.left ≤ s.right) :
    ((searchStep arr searchItem s).right + 1 - (searchStep arr searchItem s).left).toNat
      < (s.right + 1 - s.left).toNat := by
  have hm := middleOf_bounds s h
  unfold searchStep
  simp only
  split <;> simp only <;> omega


/-- The loop continues while `left <= right`. -/
theorem searchLoop_continue (arr : List Int) (searchItem : Int) (s : SearchState)
    (h : s.left ≤ s.right) :
    searchLoop arr searchItem s = searchLoop arr searchItem (searchStep arr searchItem s) := by
  rw [searchLoop, if_pos h]

/-- The loop stops as soon as `left > right`. -/
theorem searchLoop_exit (arr : List Int) (searchItem : Int) (s : SearchState)
    (h : ¬ s.left ≤ s.right) : searchLoop arr searchItem s = s := by
  rw [searchLoop, if_neg h]

/-- On a non-empty interval the truncating division is the ordinary one. -/
theorem middleOf_eq (s : SearchState) (h : s.left ≤ s.right) :
    middleOf s = s.left + (s.right - s.left) / 2 := by
  unfold middleOf
  rw [Int.tdiv_eq_ediv (by omega) (by decide)]

/-- A read at an index inside the array returns the element there. -/
theorem readAt_of_bounds (arr : List Int) (i : Int) (h0 : 0 ≤ i) (h1 : i < arr.length) :
    ∃ v, readAt arr i = some v := by
  unfold readAt
  rw [if_neg (by omega)]
  have : i.toNat < arr.length := by omega
  exact ⟨arr[i.toNat], List.getElem?_eq_getElem this⟩

/-- The body of the loop preserves the search invariant. -/
theorem searchStep_inv (arr : List Int) (searchItem : Int) (s : SearchState)
    (hinv : SearchInv arr searchItem s) (h : s.left ≤ s.right) :
    SearchInv arr searchItem (searchStep arr searchItem s) := by
  obtain ⟨h0, h1, h2, h3, h4, h5⟩ := hinv
  have hm := middleOf_bounds s h
  obtain ⟨v, hv⟩ := readAt_of_bounds arr (middleOf s) (by omega) (by omega)
  unfold searchStep
  simp only [hv, greaterThan]
  by_cases hgt : v > searchItem
  · rw [if_pos (by simpa using hgt)]
    refine ⟨h0, by simp only; omega, by simp only; omega, by simp only; omega, h4,
      Or.inr ⟨v, hv, hgt⟩⟩
  · rw [if_neg (by simpa using hgt)]
    refine ⟨by simp only; omega, by simp only; omega, h2, h3, Or.inr ⟨v, ?_, by omega⟩, h5⟩
    simp only [add_sub_cancel_right]
    exact hv

/-- The search invariant holds when the loop stops, and the interval is then empty. -/
theorem searchLoop_inv (arr : List Int) (searchItem : Int) (s : SearchState)
    (hinv : SearchInv arr searchItem s) :
    SearchInv arr searchItem (searchLoop arr searchItem s) ∧
      ¬ (searchLoop arr searchItem s).left ≤ (searchLoop arr searchItem s).right := by
  by_cases h : s.left ≤ s.right
  · rw [searchLoop_continue arr searchItem s h]
    exact searchLoop_inv arr searchItem (searchStep arr searchItem s)
      (searchStep_inv arr searchItem s hinv h)
  · rw [searchLoop_exit arr searchItem s h]
    exact ⟨hinv, h⟩
termination_by (s.right + 1 - s.left).toNat
decreasing_by exact searchStep_measure arr searchItem s h

/-- The state on entry to the loop satisfies the search invariant. -/
theorem initialState_inv (arr : List Int) (searchItem : Int) :
    SearchInv arr searchItem (initialState arr) := by
  refine ⟨le_refl _, ?_, ?_, ?_, Or.inl rfl, Or.inl rfl⟩
  · show (0 : Int) ≤ (arr.length : Int) - 1 + 1
    omega
  · show (arr.length : Int) - 1 < arr.length
    omega
  · show (arr.length : Int) = (arr.length : Int) - 1 + 1
    omega

/-- The result of `findPreviousRequests` on any array, sorted or not: the suffix starting at
an index `i` that has an item greater than `searchItem` at `i` (unless `i` is the length) and
an item at most `searchItem` just before `i` (unless `i` is `0`). -/
theorem findPreviousRequests_boundary (arr : List Int) (searchItem : Int) :
    ∃ i : Nat, i ≤ arr.length ∧ findPreviousRequests arr searchItem = arr.drop i ∧
      (i = arr.length ∨ ∃ v, arr[i]? = some v ∧ v > searchItem) ∧
      (i = 0 ∨ ∃ v, arr[i - 1]? = some v ∧ v ≤ searchItem) := by
  obtain ⟨⟨h0, h1, h2, h3, h4, h5⟩, hexit⟩ :=
    searchLoop_inv arr searchItem (initialState arr) (initialState_inv arr searchItem)
  generalize hs : searchLoop arr searchItem (initialState arr) = s at h0 h1 h2 h3 h4 h5 hexit
  have hl : s.leftGreater = s.left := by omega
  refine ⟨s.left.toNat, by omega, ?_, ?_, ?_⟩
  · unfold findPreviousRequests slice
    rw [hs, hl, if_neg (by omega)]
  · rcases h5 with h5 | ⟨v, hv, hgt⟩
    · left; omega
    · right
      refine ⟨v, ?_, hgt⟩
      unfold readAt at hv
      rw [if_neg (by omega), hl] at hv
      exact hv
  · rcases h4 with h4 | ⟨v, hv, hle⟩
    · left; omega
    · right
      refine ⟨v, ?_, hle⟩
      unfold readAt at hv
      by_cases hneg : s.left - 1 < 0
      · rw [if_pos hneg] at hv; cases hv
      · rw [if_neg hneg] at hv
        have : (s.left - 1).toNat = s.left.toNat - 1 := by omega
        rw [← this]; exact hv

/-- In a non-decreasing array, a boundary index splits the array into the items at most
`searchItem` and the items greater than `searchItem`. -/
theorem drop_eq_filter_of_boundary (arr : List Int) (searchItem : Int)
    (hs : arr.Sorted (fun a b => a ≤ b)) (i : Nat) (hi : i ≤ arr.length)
    (hgt : i = arr.length ∨ ∃ v, arr[i]? = some v ∧ v > searchItem)
    (hle : i = 0 ∨ ∃ v, arr[i - 1]? = some v ∧ v ≤ searchItem) :
    arr.drop i = arr.filter (fun e => decide (e > searchItem)) := by
  have hp := List.pairwise_iff_getElem.mp hs
  have h1 : (arr.take i).filter (fun e => decide (e > searchItem)) = [] := by
    rw [List.filter_eq_nil_iff]
    intro a ha
    obtain ⟨j, hj, rfl⟩ := List.mem_take_iff_getElem.mp ha
    have hji : j < i := by omega
    rcases hle with h0 | ⟨v, hv, hvle⟩
    · omega
    · obtain ⟨hlt, hv⟩ := List.getElem?_eq_some.mp hv
      have hjl : j < arr.length := by omega
      have : arr[j] ≤ v := by
        by_cases hjeq : j = i - 1
        · subst hjeq; exact le_of_eq hv
        · have := hp j (i - 1) hjl hlt (by omega)
          rw [hv] at this; exact this
      simp only [decide_eq_true_eq, not_lt, ge_iff_le, gt_iff_lt]
      omega
  have h2 : (arr.drop i).filter (fun e => decide (e > searchItem)) = arr.drop i := by
    rw [List.filter_eq_self]
    intro a ha
    obtain ⟨j, hj, rfl⟩ := List.mem_drop_iff_getElem.mp ha
    rcases hgt with hn | ⟨v, hv, hvgt⟩
    · omega
    · obtain ⟨hlt, hv⟩ := List.getElem?_eq_some.mp hv
      have hij : i + j < arr.length := by omega
      have : v ≤ arr[i + j] := by
        by_cases hjeq : j = 0
        · subst hjeq; exact le_of_eq hv.symm
        · have := hp i (i + j) hlt hij (by omega)
          rw [hv] at this; exact this
      simp only [decide_eq_true_eq, gt_iff_lt]
      omega
  conv_rhs => rw [← List.take_append_drop i arr, List.filter_append, h1, h2, List.nil_append]

/-- On a non-decreasing array `findPreviousRequests` keeps exactly the items greater than
`searchItem`. -/
theorem findPreviousRequests_eq_filter (arr : List Int) (searchItem : Int)
    (hs : arr.Sorted (fun a b => a ≤ b)) :
    findPreviousRequests arr searchItem = arr.filter (fun e => decide (e > searchItem)) := by
  obtain ⟨i, hi, heq, hgt, hle⟩ := findPreviousRequests_boundary arr searchItem
  rw [heq]
  exact drop_eq_filter_of_boundary arr searchItem hs i hi hgt hle

/-! ## Single calls of `checkRate` -/

/-- The wrapper `catchError` leaves the store as the body left it. -/
theorem catchError_requestLogs {K : Type} (logs : RequestLogs K) (n : Nat)
    (completion : Except String Unit) : (catchError logs n completion).requestLogs = logs := by
  unfold catchError
  cases completion <;> rfl

/-- The wrapper `catchError` does not invoke the continuation. -/
theorem catchError_nextCalls {K : Type} (logs : RequestLogs K) (n : Nat)
    (completion : Except String Unit) : (catchError logs n completion).nextCalls = n := by
  unfold catchError
  cases completion <;> rfl

/-- The store after a call for a key that has no log yet. -/
theorem checkRate_requestLogs_unseen {K : Type} [DecidableEq K] (next : Except String Unit)
    (logs : RequestLogs K) (k : K) (now : Int) (h : logs k = none) :
    (checkRate next logs k now).requestLogs = setLog logs k [now] := by
  unfold checkRate
  simp only [h, catchError_requestLogs]

/-- The store after a call for a key that already has a log. -/
theorem checkRate_requestLogs_seen {K : Type} [DecidableEq K] (next : Except String Unit)
    (logs : RequestLogs K) (k : K) (now : Int) (L : List Int) (h : logs k = some L) :
    (checkRate next logs k now).requestLogs =
      setLog logs k (findPreviousRequests L (now - limitTimeMS) ++ [now]) := by
  unfold checkRate
  simp only [h]
  split <;> simp only [catchError_requestLogs]

/-- The outcome of a call for a key that has no log yet. -/
theorem decision_checkRate_unseen {K : Type} [DecidableEq K] (next : Except String Unit)
    (logs : RequestLogs K) (k : K) (now : Int) (h : logs k = none) :
    decision (checkRate next logs k now) = Decision.Admit := by
  unfold checkRate decision
  simp only [h, catchError_nextCalls]
  rfl

/-- The outcome of a call for a key that already has a log. -/
theorem decision_checkRate_seen {K : Type} [DecidableEq K] (next : Except String Unit)
    (logs : RequestLogs K) (k : K) (now : Int) (L : List Int) (h : logs k = some L) :
    decision (checkRate next logs k now) =
      if (findPreviousRequests L (now - limitTimeMS)).length < limitNoOfRequests
      then Decision.Admit else Decision.Reject := by
  unfold checkRate decision
  simp only [h]
  split <;> simp only [catchError_nextCalls] <;> rfl

/-- A call writes only the slot of its own key. -/
theorem checkRate_requestLogs_other {K : Type} [DecidableEq K] (next : Except String Unit)
    (logs : RequestLogs K) (k k' : K) (now : Int) (h : k' ≠ k) :
    (checkRate next logs k now).requestLogs k' = logs k' := by
  cases hk : logs k with
  | none => rw [checkRate_requestLogs_unseen next logs k now hk]; simp [setLog, h]
  | some L => rw [checkRate_requestLogs_seen next logs k now L hk]; simp [setLog, h]

/-! ## Sequences of calls -/

/-- Running two sequences of calls one after the other: the store. -/
theorem runLogs_append {K : Type} [DecidableEq K] (next : Except String Unit)
    (logs : RequestLogs K) (xs ys : List (K × Int)) :
    runLogs next logs (xs ++ ys) = runLogs next (runLogs next logs xs) ys := by
  induction xs generalizing logs with
  | nil => rfl
  | cons r xs ih =>
    obtain ⟨k, t⟩ := r
    simp only [List.cons_append, runLogs]
    exact ih _

/-- Running two sequences of calls one after the other: the outcomes. -/
theorem runDecisions_append {K : Type} [DecidableEq K] (next : Except String Unit)
    (logs : RequestLogs K) (xs ys : List (K × Int)) :
    runDecisions next logs (xs ++ ys) =
      runDecisions next logs xs ++ runDecisions next (runLogs next logs xs) ys := by
  induction xs generalizing logs with
  | nil => rfl
  | cons r xs ih =>
    obtain ⟨k, t⟩ := r
    simp only [List.cons_append, runDecisions, runLogs]
    exact congrArg _ (ih _)

/-- Every call produces one outcome. -/
theorem runDecisions_length {K : Type} [DecidableEq K] (next : Except String Unit)
    (logs : RequestLogs K) (xs : List (K × Int)) :
    (runDecisions next logs xs).length = xs.length := by
  induction xs generalizing logs with
  | nil => rfl
  | cons r xs ih =>
    obtain ⟨k, t⟩ := r
    simp only [runDecisions, List.length_cons, ih]

/-- The history of a key grows by the timestamp of each of its own calls only. -/
theorem histOf_append {K : Type} [DecidableEq K] (k : K) (xs ys : List (K × Int)) :
    histOf k (xs ++ ys) = histOf k xs ++ histOf k ys := by
  simp only [histOf, List.filter_append, List.map_append]

/-- The history of `k` in a sequence of calls that are all made by `k`. -/
theorem histOf_map_self {K : Type} [DecidableEq K] (k : K) (ts : List Int) :
    histOf k (ts.map (fun t => (k, t))) = ts := by
  induction ts with
  | nil => rfl
  | cons t ts ih =>
    simp only [histOf, List.map_cons, List.filter_cons, decide_True, if_true] at ih ⊢
    rw [ih]

/-- The window of a history that ends with `now`. -/
theorem windowOf_concat (hist : List Int) (now : Int) :
    windowOf (hist ++ [now]) =
      some (hist.filter (fun e => decide (e > now - limitTimeMS)) ++ [now]) := by
  unfold windowOf
  rw [List.getLast?_concat]
  simp [List.filter_append, limitTimeMS]

/-- Pruning the stored window of a history at a later cutoff gives the part of the whole
history after that cutoff. -/
theorem findPreviousRequests_window (hist : List Int) (now : Int) (L : List Int)
    (hs : (hist ++ [now]).Sorted (fun a b => a ≤ b)) (hL : windowOf hist = some L) :
    findPreviousRequests L (now - limitTimeMS) =
      hist.filter (fun e => decide (e > now - limitTimeMS)) := by
  unfold windowOf at hL
  cases hlast : hist.getLast? with
  | none => rw [hlast] at hL; cases hL
  | some latest =>
    rw [hlast] at hL
    simp only [Option.some.injEq] at hL
    have hmem : latest ∈ hist := List.mem_of_getLast?_eq_some hlast
    have hp := List.pairwise_append.mp hs
    have hle : latest ≤ now := hp.2.2 latest hmem now (List.mem_singleton.mpr rfl)
    have hsorted : L.Sorted (fun a b => a ≤ b) := by
      rw [← hL]
      exact List.Pairwise.sublist (List.filter_sublist hist) hp.1
    rw [findPreviousRequests_eq_filter L _ hsorted, ← hL, List.filter_filter]
    apply List.filter_congr
    intro e _
    by_cases h1 : e > now - limitTimeMS
    · have h2 : e > latest - limitTimeMS := by omega
      simp [h1, h2]
    · simp [h1]

/-- After any sequence of calls in which the timestamps of key `k` are non-decreasing,
started from a store without `k`, the log of `k` is the window of its history. -/
theorem runLogs_key {K : Type} [DecidableEq K] (next : Except String Unit)
    (logs : RequestLogs K) (k : K) (hk : logs k = none) (reqs : List (K × Int))
    (hs : (histOf k reqs).Sorted (fun a b => a ≤ b)) :
    runLogs next logs reqs k = windowOf (histOf k reqs) := by
  induction reqs using List.reverseRecOn with
  | nil => simpa [runLogs, histOf, windowOf] using hk
  | append_singleton reqs r ih =>
    obtain ⟨k', t⟩ := r
    rw [runLogs_append]
    simp only [runLogs]
    rw [histOf_append] at hs ⊢
    by_cases hkk : k' = k
    · subst hkk
      have hone : histOf k' [(k', t)] = [t] := by simp [histOf]
      rw [hone] at hs ⊢
      have ih1 := ih (List.pairwise_append.mp hs).1
      rw [windowOf_concat]
      cases hw : windowOf (histOf k' reqs) with
      | none =>
        rw [hw] at ih1
        rw [checkRate_requestLogs_unseen next _ k' t ih1]
        have hnil : histOf k' reqs = [] := by
          unfold windowOf at hw
          cases hl : (histOf k' reqs).getLast? with
          | none => exact List.getLast?_eq_none_iff.mp hl
          | some x => rw [hl] at hw; cases hw
        simp [setLog, hnil]
      | some L =>
        rw [hw] at ih1
        rw [checkRate_requestLogs_seen next _ k' t L ih1,
          findPreviousRequests_window (histOf k' reqs) t L hs hw]
        simp [setLog]
    · have hone : histOf k [(k', t)] = [] := by simp [histOf, hkk]
      rw [hone, List.append_nil] at hs ⊢
      rw [checkRate_requestLogs_other next _ k' k t (fun h => hkk h.symm)]
      exact ih hs

/-- The outcome of the next call of `k` after such a sequence: rejected exactly when at least
`limitNoOfRequests` earlier timestamps of `k` lie after the cutoff. -/
theorem decision_after_run {K : Type} [DecidableEq K] (next : Except String Unit)
    (logs : RequestLogs K) (k : K) (hk : logs k = none) (reqs : List (K × Int)) (t : Int)
    (hs : (histOf k reqs ++ [t]).Sorted (fun a b => a ≤ b)) :
    decision (checkRate next (runLogs next logs reqs) k t) =
      if limitNoOfRequests ≤
          ((histOf k reqs).filter (fun e => decide (e > t - limitTimeMS))).length
      then Decision.Reject else Decision.Admit := by
  have hlog := runLogs_key next logs k hk reqs (List.pairwise_append.mp hs).1
  cases hw : windowOf (histOf k reqs) with
  | none =>
    rw [hw] at hlog
    rw [decision_checkRate_unseen next _ k t hlog]
    have hnil : histOf k reqs = [] := by
      unfold windowOf at hw
      cases hl : (histOf k reqs).getLast? with
      | none => exact List.getLast?_eq_none_iff.mp hl
      | some x => rw [hl] at hw; cases hw
    simp [hnil, limitNoOfRequests]
  | some L =>
    rw [hw] at hlog
    rw [decision_checkRate_seen next _ k t L hlog,
      findPreviousRequests_window (histOf k reqs) t L hs hw]
    by_cases hc : limitNoOfRequests ≤
        ((histOf k reqs).filter (fun e => decide (e > t - limitTimeMS))).length
    · rw [if_pos hc, if_neg (by omega)]
    · rw [if_neg hc, if_pos (by omega)]

/-- The outcome of the `i`-th call in a run of one key with non-decreasing timestamps. -/
theorem runDecisions_single {K : Type} [DecidableEq K] (next : Except String Unit)
    (logs : RequestLogs K) (k : K) (hk : logs k = none) (ts : List Int)
    (hs : ts.Sorted (fun a b => a ≤ b)) (i : Nat) (hi : i < ts.length) :
    (runDecisions next logs (ts.map (fun t => (k, t))))[i]? =
      some (k, if limitNoOfRequests ≤
          ((ts.take i).filter (fun e => decide (e > ts[i] - limitTimeMS))).length
        then Decision.Reject else Decision.Admit) := by
  have hsplit : ts = ts.take i ++ ts[i] :: ts.drop (i + 1) := by
    rw [List.getElem_cons_drop, List.take_append_drop]
  have hsorted : (ts.take i ++ [ts[i]]).Sorted (fun a b => a ≤ b) := by
    have hsub : (ts.take i ++ [ts[i]]).Sublist ts := by
      conv_rhs => rw [hsplit]
      exact List.Sublist.append (List.Sublist.refl _)
        (List.Sublist.cons₂ _ (List.nil_sublist _))
    exact List.Pairwise.sublist hsub hs
  have hdec := decision_after_run next logs k hk ((ts.take i).map (fun t => (k, t))) ts[i]
    (by rw [histOf_map_self]; exact hsorted)
  rw [histOf_map_self] at hdec
  conv_lhs => rw [hsplit]
  rw [List.map_append, runDecisions_append]
  have hlen : (runDecisions next logs ((ts.take i).map (fun t => (k, t)))).length = i := by
    rw [runDecisions_length, List.length_map, List.length_take]
    omega
  rw [List.getElem?_append_right (by omega), hlen, Nat.sub_self]
  simp only [List.map_cons, runDecisions, List.getElem?_cons_zero]
  rw [hdec]

/-- The outcome of a call and the log it stores depend only on the log of its own key. -/
theorem checkRate_congr {K : Type} [DecidableEq K] (next : Except String Unit)
    (logs1 logs2 : RequestLogs K) (k : K) (now : Int) (h : logs1 k = logs2 k) :
    decision (checkRate next logs1 k now) = decision (checkRate next logs2 k now) ∧
    (checkRate next logs1 k now).requestLogs k = (checkRate next logs2 k now).requestLogs k := by
  cases h2 : logs2 k with
  | none =>
    have h1 : logs1 k = none := h.trans h2
    rw [decision_checkRate_unseen next logs1 k now h1,
      decision_checkRate_unseen next logs2 k now h2,
      checkRate_requestLogs_unseen next logs1 k now h1,
      checkRate_requestLogs_unseen next logs2 k now h2]
    simp [setLog]
  | some L =>
    have h1 : logs1 k = some L := h.trans h2
    rw [decision_checkRate_seen next logs1 k now L h1,
      decision_checkRate_seen next logs2 k now L h2,
      checkRate_requestLogs_seen next logs1 k now L h1,
      checkRate_requestLogs_seen next logs2 k now L h2]
    simp [setLog]

/-- The outcomes of key `B` are the same in two runs that start from stores agreeing on `B`,
one of which has the calls of another key `A` removed. -/
theorem runDecisions_without {K : Type} [DecidableEq K] (next : Except String Unit)
    (A B : K) (hAB : A ≠ B) (reqs : List (K × Int)) (logs1 logs2 : RequestLogs K)
    (h : logs1 B = logs2 B) :
    (runDecisions next logs1 reqs).filter (fun d => decide (d.1 = B)) =
      (runDecisions next logs2 (reqs.filter (fun r => decide (r.1 ≠ A)))).filter
        (fun d => decide (d.1 = B)) := by
  induction reqs generalizing logs1 logs2 with
  | nil => rfl
  | cons r reqs ih =>
    obtain ⟨k, t⟩ := r
    by_cases hkA : k = A
    · subst hkA
      have hstep : (checkRate next logs1 k t).requestLogs B = logs2 B := by
        rw [checkRate_requestLogs_other next logs1 k B t (fun e => hAB e.symm)]
        exact h
      simp only [runDecisions, List.filter_cons, hAB, decide_False, ne_eq, not_true_eq_false,
        Bool.false_eq_true, if_false]
      exact ih _ _ hstep
    · have hcong := checkRate_congr next logs1 logs2 k t
      by_cases hkB : k = B
      · subst hkB
        obtain ⟨hd, hl⟩ := hcong h
        simp only [runDecisions, List.filter_cons, ne_eq, hkA, not_false_eq_true, decide_True,
          if_true, hd]
        exact congrArg _ (ih _ _ hl)
      · have hstep : (checkRate next logs1 k t).requestLogs B =
            (checkRate next logs2 k t).requestLogs B := by
          rw [checkRate_requestLogs_other next logs1 k B t (fun e => hkB e.symm),
            checkRate_requestLogs_other next logs2 k B t (fun e => hkB e.symm)]
          exact h
        simp only [runDecisions, List.filter_cons, ne_eq, hkA, not_false_eq_true, decide_True,
          if_true, hkB, decide_False, Bool.false_eq_true, if_false]
        exact ih _ _ hstep

/-- An element of a filtered list comes from some position of the list, and the filtered
elements before it are those of the part of the list before that position. -/
theorem filter_getElem?_split {α : Type} (p : α → Bool) (l : List α) (b : Nat) (y : α)
    (h : (l.filter p)[b]? = some y) :
    ∃ i, l[i]? = some y ∧ p y = true ∧ (l.take i).filter p = (l.filter p).take b := by
  induction l generalizing b with
  | nil => simp at h
  | cons x l ih =>
    by_cases hx : p x = true
    · rw [List.filter_cons_of_pos hx] at h ⊢
      cases b with
      | zero =>
        simp only [List.getElem?_cons_zero, Option.some.injEq] at h
        subst h
        exact ⟨0, List.getElem?_cons_zero, hx, rfl⟩
      | succ b =>
        rw [List.getElem?_cons_succ] at h
        obtain ⟨i, hi, hp, ht⟩ := ih b h
        refine ⟨i + 1, by rw [List.getElem?_cons_succ]; exact hi, hp, ?_⟩
        rw [List.take_succ_cons, List.filter_cons_of_pos hx, ht, List.take_succ_cons]
    · rw [List.filter_cons_of_neg hx] at h ⊢
      obtain ⟨i, hi, hp, ht⟩ := ih b h
      refine ⟨i + 1, by rw [List.getElem?_cons_succ]; exact hi, hp, ?_⟩
      rw [List.take_succ_cons, List.filter_cons_of_neg hx, ht]

/-- Taking the first `i` entries commutes with pairing. -/
theorem zip_take_take {α β : Type} (l1 : List α) (l2 : List β) (i : Nat) :
    (l1.take i).zip (l2.take i) = (l1.zip l2).take i := by
  induction l1 generalizing l2 i with
  | nil => simp
  | cons a l1 ih =>
    cases l2 with
    | nil => simp
    | cons c l2 =>
      cases i with
      | zero => simp
      | succ i => simp only [List.take_succ_cons, List.zip_cons_cons, ih]

/-- The admitted timestamps are a sub-sequence of all timestamps. -/
theorem admittedTimes_sublist {K : Type} (ts : List Int) (ds : List (K × Decision)) :
    (admittedTimes ts ds).Sublist ts := by
  induction ts generalizing ds with
  | nil => simp [admittedTimes]
  | cons t ts ih =>
    cases ds with
    | nil => simp [admittedTimes]
    | cons d ds =>
      have ih1 := ih ds
      unfold admittedTimes at ih1 ⊢
      rw [List.zip_cons_cons]
      by_cases hd : d.2 = Decision.Admit
      · rw [List.filter_cons_of_pos (by simpa using hd), List.map_cons]
        exact List.Sublist.cons₂ _ ih1
      · rw [List.filter_cons_of_neg (by simpa using hd)]
        exact List.Sublist.cons _ ih1

/-- An admitted request of a one-key run has fewer than `limitNoOfRequests` earlier
requests after its cutoff. -/
theorem admitted_count_lt {K : Type} [DecidableEq K] (next : Except String Unit)
    (logs : RequestLogs K) (k : K) (hk : logs k = none) (ts : List Int)
    (hs : ts.Sorted (fun a b => a ≤ b)) (i : Nat) (hi : i < ts.length) (kd : K)
    (h : (runDecisions next logs (ts.map (fun t => (k, t))))[i]? = some (kd, Decision.Admit)) :
    ((ts.take i).filter (fun e => decide (e > ts[i] - limitTimeMS))).length
      < limitNoOfRequests := by
  rw [runDecisions_single next logs k hk ts hs i hi] at h
  by_contra hc
  rw [if_pos (by omega)] at h
  simp at h

/-- The history of a key is not changed by calls of other keys. -/
theorem histOf_eq_nil {K : Type} [DecidableEq K] (k : K) (post : List (K × Int))
    (h : ∀ r ∈ post, r.1 ≠ k) : histOf k post = [] := by
  unfold histOf
  rw [List.map_eq_nil_iff, List.filter_eq_nil_iff]
  intro r hr
  simpa using h r hr

/-- The history of a key in a run whose last call of that key is at time `t`. -/
theorem histOf_latest {K : Type} [DecidableEq K] (k : K) (pre post : List (K × Int)) (t : Int)
    (h : ∀ r ∈ post, r.1 ≠ k) : histOf k (pre ++ (k, t) :: post) = histOf k pre ++ [t] := by
  have hcons : (k, t) :: post = [(k, t)] ++ post := rfl
  rw [hcons, histOf_append, histOf_append, histOf_eq_nil k post h, List.append_nil]
  simp [histOf]

/-! ## Claims about the pruner -/

/-- C1: on a non-decreasing sequence `S`, `findPreviousRequests S C` is the sub-sequence of
the elements `e > C` in their original order and multiplicity; an element equal to `C` is
excluded; and the result is the maximal suffix of `S` whose elements all exceed `C`. -/
theorem findPreviousRequests_pruning (S : List Int) (C : Int)
    (hs : S.Sorted (fun a b => a ≤ b)) :
    findPreviousRequests S C = S.filter (fun e => decide (e > C)) ∧
    C ∉ findPreviousRequests S C ∧
    findPreviousRequests S C <:+ S ∧
    (∀ e ∈ findPreviousRequests S C, e > C) ∧
    (∀ t : List Int, t <:+ S → (∀ e ∈ t, e > C) → t <:+ findPreviousRequests S C) := by
  have heq := findPreviousRequests_eq_filter S C hs
  obtain ⟨i, _, hdrop, _, _⟩ := findPreviousRequests_boundary S C
  have hall : ∀ e ∈ findPreviousRequests S C, e > C := by
    intro e he
    rw [heq] at he
    simpa using (List.mem_filter.mp he).2
  refine ⟨heq, fun hmem => lt_irrefl C (hall C hmem), ?_, hall, ?_⟩
  · rw [hdrop]; exact List.drop_suffix i S
  · intro t ht hgt
    have hfilter : t.filter (fun e => decide (e > C)) = t := by
      rw [List.filter_eq_self]
      intro a ha
      simpa using hgt a ha
    rw [heq, ← hfilter]
    exact List.IsSuffix.filter _ ht

/-- C1 at `S = [1, 2, 3, 3, 4, 5]`, `C = 3`: the result is `[4, 5]`. -/
theorem findPreviousRequests_pruning_witness :
    List.Sorted (fun a b : Int => a ≤ b) [1, 2, 3, 3, 4, 5] ∧
      findPreviousRequests [1, 2, 3, 3, 4, 5] 3 = [4, 5] :=
  ⟨by decide,
    (findPreviousRequests_pruning [1, 2, 3, 3, 4, 5] 3 (by decide)).1.trans (by decide)⟩

/-! ## Claims about the admission decision -/

/-- C2: in a run of one client key with non-decreasing timestamps from the empty store, the
`i`-th request (at time `ts[i]`) is rejected if and only if at least 10 earlier requests of the
key have a timestamp strictly greater than `ts[i] - 30000`; otherwise it is admitted. -/
theorem checkRate_rejects_iff {K : Type} [DecidableEq K] (next : Except String Unit) (k : K)
    (ts : List Int) (hs : ts.Sorted (fun a b => a ≤ b)) (i : Nat) (hi : i < ts.length) :
    ((runDecisions next (requestLogs : RequestLogs K) (ts.map (fun t => (k, t))))[i]? =
        some (k, Decision.Reject) ↔
      10 ≤ ((ts.take i).filter (fun e => decide (e > ts[i] - 30000))).length) ∧
    ((runDecisions next (requestLogs : RequestLogs K) (ts.map (fun t => (k, t))))[i]? =
        some (k, Decision.Admit) ↔
      ¬ 10 ≤ ((ts.take i).filter (fun e => decide (e > ts[i] - 30000))).length) := by
  have h := runDecisions_single next (requestLogs : RequestLogs K) k rfl ts hs i hi
  simp only [limitNoOfRequests, limitTimeMS] at h
  rw [h]
  by_cases hc : 10 ≤ ((ts.take i).filter (fun e => decide (e > ts[i] - 30000))).length
  · simp [hc]
  · simp [hc]

/-- C2 at eleven requests of key `"A"` at times `0, 1, ..., 10`: the eleventh is rejected. -/
theorem checkRate_rejects_iff_witness :
    (runDecisions (Except.ok ()) (requestLogs : RequestLogs String)
        ([0, 1, 2, 3, 4, 5, 6, 7, 8, 9, 10].map (fun t => ("A", t))))[10]? =
      some ("A", Decision.Reject) :=
  (checkRate_rejects_iff (Except.ok ()) "A" [0, 1, 2, 3, 4, 5, 6, 7, 8, 9, 10]
    (by decide) 10 (by decide)).1.mpr (by decide)

/-- C4: for a key already in the store with log `L`, the decision is Admit exactly when the
number of survivors `findPreviousRequests L (now - 30000)` is strictly less than 10, and Reject
otherwise; the stored log afterwards has one entry more than the count that was compared,
the current timestamp not being counted. -/
theorem checkRate_decision_survivors {K : Type} [DecidableEq K] (next : Except String Unit)
    (logs : RequestLogs K) (k : K) (L : List Int) (now : Int) (h : logs k = some L) :
    (decision (checkRate next logs k now) = Decision.Admit ↔
      (findPreviousRequests L (now - 30000)).length < 10) ∧
    (decision (checkRate next logs k now) = Decision.Reject ↔
      ¬ (findPreviousRequests L (now - 30000)).length < 10) ∧
    (∃ L1, (checkRate next logs k now).requestLogs k = some L1 ∧
      L1.length = (findPreviousRequests L (now - 30000)).length + 1) := by
  have hd := decision_checkRate_seen next logs k now L h
  have hl := checkRate_requestLogs_seen next logs k now L h
  simp only [limitNoOfRequests, limitTimeMS] at hd hl
  refine ⟨?_, ?_, ⟨findPreviousRequests L (now - 30000) ++ [now], ?_, ?_⟩⟩
  · rw [hd]; by_cases hc : (findPreviousRequests L (now - 30000)).length < 10 <;> simp [hc]
  · rw [hd]; by_cases hc : (findPreviousRequests L (now - 30000)).length < 10 <;> simp [hc]
  · rw [hl]; simp [setLog]
  · simp

/-- C4 at the log `[0, 1, ..., 9]` of key `"A"` and `now = 10`: ten survivors, Reject. -/
theorem checkRate_decision_survivors_witness :
    decision (checkRate (Except.ok ())
        (setLog (requestLogs : RequestLogs String) "A" [0, 1, 2, 3, 4, 5, 6, 7, 8, 9]) "A" 10) =
      Decision.Reject ↔
    ¬ (findPreviousRequests [0, 1, 2, 3, 4, 5, 6, 7, 8, 9] (10 - 30000)).length < 10 :=
  (checkRate_decision_survivors (Except.ok ())
    (setLog (requestLogs : RequestLogs String) "A" [0, 1, 2, 3, 4, 5, 6, 7, 8, 9]) "A"
    [0, 1, 2, 3, 4, 5, 6, 7, 8, 9] 10 (by simp [setLog])).2.1

/-- C5: for a key already in the store with log `L`, after the call the stored log of the key
is `findPreviousRequests L (now - 30000)` followed by `now`, whether the request was admitted
or rejected. -/
theorem checkRate_stored_log {K : Type} [DecidableEq K] (next : Except String Unit)
    (logs : RequestLogs K) (k : K) (L : List Int) (now : Int) (h : logs k = some L) :
    (checkRate next logs k now).requestLogs k =
        some (findPreviousRequests L (now - 30000) ++ [now]) ∧
    (decision (checkRate next logs k now) = Decision.Reject →
      (checkRate next logs k now).requestLogs k =
        some (findPreviousRequests L (now - 30000) ++ [now])) ∧
    (decision (checkRate next logs k now) = Decision.Admit →
      (checkRate next logs k now).requestLogs k =
        some (findPreviousRequests L (now - 30000) ++ [now])) := by
  have hl : (checkRate next logs k now).requestLogs k =
      some (findPreviousRequests L (now - 30000) ++ [now]) := by
    rw [checkRate_requestLogs_seen next logs k now L h]
    simp [setLog, limitTimeMS]
  exact ⟨hl, fun _ => hl, fun _ => hl⟩

/-- C5 at the log `[0, 1, ..., 9]` of key `"A"` and `now = 10`, a rejected request: the stored
log becomes `[0, 1, ..., 10]`. -/
theorem checkRate_stored_log_witness :
    decision (checkRate (Except.ok ())
        (setLog (requestLogs : RequestLogs String) "A" [0, 1, 2, 3, 4, 5, 6, 7, 8, 9]) "A" 10) =
      Decision.Reject ∧
    (checkRate (Except.ok ())
        (setLog (requestLogs : RequestLogs String) "A" [0, 1, 2, 3, 4, 5, 6, 7, 8, 9]) "A"
        10).requestLogs "A" = some [0, 1, 2, 3, 4, 5, 6, 7, 8, 9, 10] :=
  ⟨by simp [checkRate, setLog, catchError, decision, limitTimeMS, limitNoOfRequests,
      findPreviousRequests, searchLoop_continue, searchLoop_exit, searchStep, initialState,
      middleOf_eq, readAt, greaterThan, slice],
    (checkRate_stored_log (Except.ok ())
      (setLog (requestLogs : RequestLogs String) "A" [0, 1, 2, 3, 4, 5, 6, 7, 8, 9]) "A"
      [0, 1, 2, 3, 4, 5, 6, 7, 8, 9] 10 (by simp [setLog])).1.trans
      (by simp [findPreviousRequests, searchLoop_continue, searchLoop_exit, searchStep,
        initialState, middleOf_eq, readAt, greaterThan, slice])⟩

/-- What a call does for a key that is not yet in the store, whatever the continuation does:
the continuation is invoked once, the store afterwards maps the key to `[now]`, and the log of
every other key is unchanged; no response is sent when the continuation returns, and when it
throws `Error(message)` the `catch` sends status 429 with that message. -/
theorem checkRate_unseen_effects {K : Type} [DecidableEq K] (next : Except String Unit)
    (logs : RequestLogs K) (k : K) (now : Int) (h : logs k = none) :
    decision (checkRate next logs k now) = Decision.Admit ∧
    (checkRate next logs k now).nextCalls = 1 ∧
    (checkRate (Except.ok ()) logs k now).response = none ∧
    (∀ message : String,
      (checkRate (Except.error message) logs k now).response = some ⟨429, message⟩) ∧
    (checkRate next logs k now).requestLogs k = some [now] ∧
    (∀ k1, k1 ≠ k → (checkRate next logs k now).requestLogs k1 = logs k1) := by
  refine ⟨decision_checkRate_unseen next logs k now h, ?_, ?_, ?_, ?_, ?_⟩
  · unfold checkRate
    simp only [h, catchError_nextCalls]
  · unfold checkRate
    simp only [h]
    rfl
  · intro message
    unfold checkRate
    simp only [h]
    rfl
  · rw [checkRate_requestLogs_unseen next logs k now h]
    simp [setLog]
  · intro k1 hk1
    exact checkRate_requestLogs_other next logs k k1 now hk1

/-- C6, a defect of the code: the first request of the key `"10.0.0.1"`, at time `7` from the
empty store, with a continuation that throws `Error("boom")`. The key is unseen, the
continuation is invoked once and the store maps the key to `[7]`, yet the call sends
status 429 with body `boom`: `next()` sits inside the `try` block, whose `catch` answers 429
"to indicate rate limit reached" although no limit was reached. -/
theorem checkRate_first_request_throwing :
    (requestLogs : RequestLogs String) "10.0.0.1" = none ∧
    (checkRate (Except.error "boom") (requestLogs : RequestLogs String) "10.0.0.1" 7).nextCalls
      = 1 ∧
    decision (checkRate (Except.error "boom") (requestLogs : RequestLogs String) "10.0.0.1" 7)
      = Decision.Admit ∧
    (checkRate (Except.error "boom") (requestLogs : RequestLogs String) "10.0.0.1" 7).response
      = some ⟨429, "boom"⟩ ∧
    (checkRate (Except.error "boom") (requestLogs : RequestLogs String) "10.0.0.1"
      7).requestLogs "10.0.0.1" = some [7] ∧
    (checkRate (Except.ok ()) (requestLogs : RequestLogs String) "10.0.0.1" 7).response
      = none := by
  refine ⟨rfl, ?_, ?_, ?_, ?_, ?_⟩
  · simp [checkRate, requestLogs, catchError]
  · simp [checkRate, requestLogs, catchError, decision]
  · simp [checkRate, requestLogs, catchError]
  · simp [checkRate, requestLogs, catchError, setLog]
  · simp [checkRate, requestLogs, catchError]

/-- C7: for a key unseen in the store and eleven non-decreasing timestamps with the last
less than 30000 after the first, the eleven requests in order are answered Admit for
requests 1 to 10 and Reject for request 11. -/
theorem checkRate_quota_boundary {K : Type} [DecidableEq K] (next : Except String Unit)
    (logs : RequestLogs K) (k : K) (hk : logs k = none) (ts : List Int)
    (hlen : ts.length = 11) (hs : ts.Sorted (fun a b => a ≤ b))
    (hw : ts[10] - ts[0] < 30000) :
    (runDecisions next logs (ts.map (fun t => (k, t)))).map Prod.snd =
      List.replicate 10 Decision.Admit ++ [Decision.Reject] := by
  have hp := List.pairwise_iff_getElem.mp hs
  have hmono : ∀ (a b : Nat) (ha : a < ts.length) (hb : b < ts.length), a ≤ b →
      ts[a] ≤ ts[b] := by
    intro a b ha hb hab
    rcases Nat.lt_or_ge a b with hlt | hge
    · exact hp a b ha hb hlt
    · have : a = b := by omega
      subst this; exact le_refl _
  apply List.ext_getElem?
  intro i
  rw [List.getElem?_map]
  by_cases hi : i < ts.length
  · rw [runDecisions_single next logs k hk ts hs i hi]
    have hall : (ts.take i).filter (fun e => decide (e > ts[i] - limitTimeMS)) = ts.take i := by
      rw [List.filter_eq_self]
      intro a ha
      obtain ⟨j, hj, rfl⟩ := List.mem_take_iff_getElem.mp ha
      have hjl : j < ts.length := by omega
      have h1 := hmono 0 j (by omega) hjl (Nat.zero_le j)
      have h2 := hmono i 10 hi (by omega) (by omega)
      simp only [decide_eq_true_eq, gt_iff_lt, limitTimeMS]
      omega
    rw [hall, List.length_take, Nat.min_eq_left (by omega)]
    have hi11 : i < 11 := by omega
    simp only [limitNoOfRequests, Option.map_some']
    interval_cases i <;> rfl
  · have hnone : (runDecisions next logs (ts.map (fun t => (k, t))))[i]? = none := by
      rw [List.getElem?_eq_none_iff, runDecisions_length, List.length_map]
      omega
    rw [hnone]
    have : (List.replicate 10 Decision.Admit ++ [Decision.Reject])[i]? = none := by
      rw [List.getElem?_eq_none_iff]
      simp only [List.length_append, List.length_replicate, List.length_singleton]
      omega
    rw [this]
    rfl

/-- C7 at a store holding only key `"B"`, for key `"A"` at times `100, 100, 250, ..., 30099`. -/
theorem checkRate_quota_boundary_witness :
    (runDecisions (Except.ok ()) (setLog (requestLogs : RequestLogs String) "B" [1, 2])
        ([100, 100, 250, 300, 300, 300, 4000, 20000, 20000, 30000, 30099].map
          (fun t => ("A", t)))).map Prod.snd =
      List.replicate 10 Decision.Admit ++ [Decision.Reject] :=
  checkRate_quota_boundary (Except.ok ()) (setLog (requestLogs : RequestLogs String) "B" [1, 2])
    "A" (by simp [setLog, requestLogs])
    [100, 100, 250, 300, 300, 300, 4000, 20000, 20000, 30000, 30099] (by decide) (by decide)
    (by decide)

/-- C9: for distinct keys `A` and `B`, a call for `A` leaves the stored log of `B` unchanged,
and in every run the sequence of outcomes of `B` equals the one obtained when the requests of
`A` are removed from the run. -/
theorem checkRate_key_isolation {K : Type} [DecidableEq K] (next : Except String Unit)
    (logs : RequestLogs K) (A B : K) (hAB : A ≠ B) :
    (∀ now : Int, (checkRate next logs A now).requestLogs B = logs B) ∧
    (∀ reqs : List (K × Int),
      (runDecisions next logs reqs).filter (fun d => decide (d.1 = B)) =
        (runDecisions next logs (reqs.filter (fun r => decide (r.1 ≠ A)))).filter
          (fun d => decide (d.1 = B))) :=
  ⟨fun now => checkRate_requestLogs_other next logs A B now (fun e => hAB e.symm),
    fun reqs => runDecisions_without next A B hAB reqs logs logs rfl⟩

/-- C9 at keys `"A"` and `"B"`: a call for `"A"` at time 5 leaves the log `[1, 2]` of `"B"`. -/
theorem checkRate_key_isolation_witness :
    (checkRate (Except.ok ()) (setLog (requestLogs : RequestLogs String) "B" [1, 2])
        "A" 5).requestLogs "B" = some [1, 2] :=
  ((checkRate_key_isolation (Except.ok ())
    (setLog (requestLogs : RequestLogs String) "B" [1, 2]) "A" "B" (by decide)).1 5).trans
    (by simp [setLog])

/-- C10: from a store where `A` is unseen, the ten requests of `A` at `t = 0, ..., 9` are
admitted; the eleventh at `t = 10` finds exactly 10 survivors and is rejected; the next at
`t = 30011` has cutoff 11, every earlier timestamp is at most 11 and pruned, it finds exactly
0 survivors and is admitted. -/
theorem checkRate_scenario {K : Type} [DecidableEq K] (next : Except String Unit)
    (logs : RequestLogs K) (A : K) (hA : logs A = none) :
    (runDecisions next logs
        ([0, 1, 2, 3, 4, 5, 6, 7, 8, 9, 10, 30011].map (fun t => (A, t)))).map Prod.snd =
      List.replicate 10 Decision.Admit ++ [Decision.Reject, Decision.Admit] ∧
    runLogs next logs ([0, 1, 2, 3, 4, 5, 6, 7, 8, 9].map (fun t => (A, t))) A =
      some [0, 1, 2, 3, 4, 5, 6, 7, 8, 9] ∧
    survivorsCount [0, 1, 2, 3, 4, 5, 6, 7, 8, 9] 10 = 10 ∧
    runLogs next logs ([0, 1, 2, 3, 4, 5, 6, 7, 8, 9, 10].map (fun t => (A, t))) A =
      some [0, 1, 2, 3, 4, 5, 6, 7, 8, 9, 10] ∧
    30011 - limitTimeMS = 11 ∧
    (∀ e ∈ [0, 1, 2, 3, 4, 5, 6, 7, 8, 9, 10], e ≤ (11 : Int)) ∧
    findPreviousRequests [0, 1, 2, 3, 4, 5, 6, 7, 8, 9, 10] 11 = [] ∧
    survivorsCount [0, 1, 2, 3, 4, 5, 6, 7, 8, 9, 10] 30011 = 0 := by
  refine ⟨?_, ?_, ?_, ?_, by decide, by decide, ?_, ?_⟩
  · simp [runDecisions, checkRate, hA, setLog, catchError_requestLogs, catchError_nextCalls,
      decision, limitTimeMS, limitNoOfRequests, findPreviousRequests, searchLoop_continue,
      searchLoop_exit, searchStep, initialState, middleOf_eq, readAt, greaterThan, slice]
  · simp [runLogs, checkRate, hA, setLog, catchError_requestLogs, limitTimeMS,
      limitNoOfRequests, findPreviousRequests, searchLoop_continue, searchLoop_exit,
      searchStep, initialState, middleOf_eq, readAt, greaterThan, slice]
  · simp [survivorsCount, limitTimeMS, findPreviousRequests, searchLoop_continue,
      searchLoop_exit, searchStep, initialState, middleOf_eq, readAt, greaterThan, slice]
  · simp [runLogs, checkRate, hA, setLog, catchError_requestLogs, limitTimeMS,
      limitNoOfRequests, findPreviousRequests, searchLoop_continue, searchLoop_exit,
      searchStep, initialState, middleOf_eq, readAt, greaterThan, slice]
  · simp [findPreviousRequests, searchLoop_continue, searchLoop_exit, searchStep,
      initialState, middleOf_eq, readAt, greaterThan, slice]
  · simp [survivorsCount, limitTimeMS, findPreviousRequests, searchLoop_continue,
      searchLoop_exit, searchStep, initialState, middleOf_eq, readAt, greaterThan, slice]

/-- C10 from the empty store, for the key `"A"`. -/
theorem checkRate_scenario_witness :
    (runDecisions (Except.ok ()) (requestLogs : RequestLogs String)
        ([0, 1, 2, 3, 4, 5, 6, 7, 8, 9, 10, 30011].map (fun t => ("A", t)))).map Prod.snd =
      List.replicate 10 Decision.Admit ++ [Decision.Reject, Decision.Admit] :=
  (checkRate_scenario (Except.ok ()) (requestLogs : RequestLogs String) "A" rfl).1

/-- C3: in a run of one client key with non-decreasing timestamps from the empty store, every
admitted request at time `t` has at most 9 earlier admitted requests with a timestamp strictly
greater than `t - 30000`, and any 11 admitted requests span at least 30000 ms from the first
to the last. -/
theorem checkRate_window_bound {K : Type} [DecidableEq K] (next : Except String Unit) (k : K)
    (ts : List Int) (hs : ts.Sorted (fun a b => a ≤ b)) :
    (∀ (i : Nat) (hi : i < ts.length),
      (runDecisions next (requestLogs : RequestLogs K) (ts.map (fun t => (k, t))))[i]? =
        some (k, Decision.Admit) →
      ((admittedTimes (ts.take i)
          ((runDecisions next (requestLogs : RequestLogs K)
            (ts.map (fun t => (k, t)))).take i)).filter
        (fun e => decide (e > ts[i] - 30000))).length ≤ 9) ∧
    (∀ (a b : Nat) (x y : Int), a + 10 ≤ b →
      (admittedTimes ts (runDecisions next (requestLogs : RequestLogs K)
        (ts.map (fun t => (k, t)))))[a]? = some x →
      (admittedTimes ts (runDecisions next (requestLogs : RequestLogs K)
        (ts.map (fun t => (k, t)))))[b]? = some y →
      y - x ≥ 30000) := by
  have hkinit : (requestLogs : RequestLogs K) k = none := rfl
  generalize hds : runDecisions next (requestLogs : RequestLogs K)
    (ts.map (fun t => (k, t))) = ds
  have hcount : ∀ (i : Nat) (hi : i < ts.length) (kd : K),
      ds[i]? = some (kd, Decision.Admit) →
      ((admittedTimes (ts.take i) (ds.take i)).filter
        (fun e => decide (e > ts[i] - 30000))).length < 10 := by
    intro i hi kd hadm
    rw [← hds] at hadm
    have hlt := admitted_count_lt next _ k hkinit ts hs i hi kd hadm
    simp only [limitTimeMS, limitNoOfRequests] at hlt
    have hsub := (admittedTimes_sublist (ts.take i) (ds.take i)).filter
      (fun e => decide (e > ts[i] - 30000))
    exact lt_of_le_of_lt hsub.length_le hlt
  refine ⟨fun i hi hadm => Nat.le_of_lt_succ (hcount i hi k hadm), ?_⟩
  intro a b x y hab hx hy
  by_contra hspan
  have hxy : x > y - 30000 := by omega
  -- locate the request behind the `b`-th admitted timestamp
  unfold admittedTimes at hy
  rw [List.getElem?_map] at hy
  cases hz : ((ts.zip ds).filter (fun p => decide (p.2.2 = Decision.Admit)))[b]? with
  | none => rw [hz] at hy; simp at hy
  | some z =>
    rw [hz] at hy
    simp only [Option.map_some', Option.some.injEq] at hy
    obtain ⟨i, hzi, hzp, htake⟩ := filter_getElem?_split _ (ts.zip ds) b z hz
    obtain ⟨hti, hdi⟩ := List.getElem?_zip_eq_some.mp hzi
    obtain ⟨hi, htiy⟩ := List.getElem?_eq_some.mp hti
    rw [hy] at htiy
    have hzadm : z.2.2 = Decision.Admit := by simpa using hzp
    have hdi1 : ds[i]? = some (z.2.1, Decision.Admit) := by
      rw [hdi, ← hzadm]
    have hlt := hcount i hi z.2.1 hdi1
    rw [htiy] at hlt
    -- the admitted timestamps before it are the first `b` admitted timestamps
    have hpre : admittedTimes (ts.take i) (ds.take i) = (admittedTimes ts ds).take b := by
      unfold admittedTimes
      rw [zip_take_take, htake, List.map_take]
    rw [hpre] at hlt
    -- those from position `a` on all lie after the cutoff
    have hsortedA : (admittedTimes ts ds).Sorted (fun a b => a ≤ b) :=
      List.Pairwise.sublist (admittedTimes_sublist ts ds) hs
    have hpA := List.pairwise_iff_getElem.mp hsortedA
    obtain ⟨ha, hax⟩ := List.getElem?_eq_some.mp hx
    have hbA : b ≤ (admittedTimes ts ds).length := by
      have h1 : b < ((ts.zip ds).filter (fun p => decide (p.2.2 = Decision.Admit))).length :=
        (List.getElem?_eq_some.mp hz).1
      unfold admittedTimes
      rw [List.length_map]
      omega
    have hall : (((admittedTimes ts ds).take b).drop a).filter
        (fun e => decide (e > y - 30000)) = ((admittedTimes ts ds).take b).drop a := by
      rw [List.filter_eq_self]
      intro e he
      obtain ⟨j, hj, rfl⟩ := List.mem_drop_iff_getElem.mp he
      rw [List.getElem_take]
      have hjb : a + j < (admittedTimes ts ds).length := by
        rw [List.length_take] at hj
        omega
      have hge : x ≤ (admittedTimes ts ds)[a + j] := by
        rw [← hax]
        by_cases hj0 : j = 0
        · subst hj0; exact le_refl _
        · exact hpA a (a + j) ha hjb (by omega)
      simp only [decide_eq_true_eq, gt_iff_lt]
      omega
    have hsub := ((List.drop_sublist a ((admittedTimes ts ds).take b)).filter
      (fun e => decide (e > y - 30000))).length_le
    rw [hall, List.length_drop, List.length_take, Nat.min_eq_left hbA] at hsub
    omega

/-- C3 at eleven requests of key `"A"` at times `0, 1, ..., 9, 30000`, all admitted: the
eleventh admitted timestamp lies 30000 after the first. -/
theorem checkRate_window_bound_witness :
    List.Sorted (fun a b : Int => a ≤ b) [0, 1, 2, 3, 4, 5, 6, 7, 8, 9, 30000] ∧
    (admittedTimes [0, 1, 2, 3, 4, 5, 6, 7, 8, 9, 30000]
        (runDecisions (Except.ok ()) (requestLogs : RequestLogs String)
          ([0, 1, 2, 3, 4, 5, 6, 7, 8, 9, 30000].map (fun t => ("A", t)))))[10]? =
      some 30000 ∧
    (30000 : Int) - 0 ≥ 30000 :=
  have hrun : (admittedTimes [0, 1, 2, 3, 4, 5, 6, 7, 8, 9, 30000]
      (runDecisions (Except.ok ()) (requestLogs : RequestLogs String)
        ([0, 1, 2, 3, 4, 5, 6, 7, 8, 9, 30000].map (fun t => ("A", t))))) =
      [0, 1, 2, 3, 4, 5, 6, 7, 8, 9, 30000] := by
    simp [admittedTimes, runDecisions, checkRate, requestLogs, setLog, catchError, decision,
      limitTimeMS, limitNoOfRequests, findPreviousRequests, searchLoop_continue,
      searchLoop_exit, searchStep, initialState, middleOf_eq, readAt, greaterThan, slice]
  ⟨by decide, by rw [hrun]; rfl,
    (checkRate_window_bound (Except.ok ()) "A" [0, 1, 2, 3, 4, 5, 6, 7, 8, 9, 30000]
      (by decide)).2 0 10 0 30000 (by decide) (by rw [hrun]; rfl) (by rw [hrun]; rfl)⟩

/-- C8, as stated, fails: after twelve requests of key `"A"` at times `0, 1, ..., 11`, the last
of which was rejected, the stored log is `[0, ..., 11]` with earliest entry `0`; the next
request at `30001 = 0 + 30000 + 1` still finds the ten survivors `2, ..., 11` and is
rejected. -/
theorem checkRate_window_expiry_counterexample :
    List.Sorted (fun a b : Int => a ≤ b)
      (histOf "A" ([0, 1, 2, 3, 4, 5, 6, 7, 8, 9, 10, 11].map (fun t => ("A", t)))) ∧
    decision (checkRate (Except.ok ())
      (runLogs (Except.ok ()) (requestLogs : RequestLogs String)
        ([0, 1, 2, 3, 4, 5, 6, 7, 8, 9, 10].map (fun t => ("A", t)))) "A" 11) =
      Decision.Reject ∧
    runLogs (Except.ok ()) (requestLogs : RequestLogs String)
        ([0, 1, 2, 3, 4, 5, 6, 7, 8, 9, 10, 11].map (fun t => ("A", t))) "A" =
      some [0, 1, 2, 3, 4, 5, 6, 7, 8, 9, 10, 11] ∧
    ([0, 1, 2, 3, 4, 5, 6, 7, 8, 9, 10, 11] : List Int).head? = some 0 ∧
    (30001 : Int) ≥ 0 + 30000 + 1 ∧
    findPreviousRequests [0, 1, 2, 3, 4, 5, 6, 7, 8, 9, 10, 11] (30001 - 30000) =
      [2, 3, 4, 5, 6, 7, 8, 9, 10, 11] ∧
    decision (checkRate (Except.ok ())
      (runLogs (Except.ok ()) (requestLogs : RequestLogs String)
        ([0, 1, 2, 3, 4, 5, 6, 7, 8, 9, 10, 11].map (fun t => ("A", t)))) "A" 30001) =
      Decision.Reject := by
  refine ⟨?_, ?_, ?_, rfl, by decide, ?_, ?_⟩
  · rw [histOf_map_self]; decide
  · simp [runLogs, checkRate, requestLogs, setLog, catchError, decision, limitTimeMS,
      limitNoOfRequests, findPreviousRequests, searchLoop_continue, searchLoop_exit,
      searchStep, initialState, middleOf_eq, readAt, greaterThan, slice]
  · simp [runLogs, checkRate, requestLogs, setLog, catchError, limitTimeMS,
      limitNoOfRequests, findPreviousRequests, searchLoop_continue, searchLoop_exit,
      searchStep, initialState, middleOf_eq, readAt, greaterThan, slice]
  · simp [findPreviousRequests, searchLoop_continue, searchLoop_exit, searchStep,
      initialState, middleOf_eq, readAt, greaterThan, slice]
  · simp [runLogs, checkRate, requestLogs, setLog, catchError, decision, limitTimeMS,
      limitNoOfRequests, findPreviousRequests, searchLoop_continue, searchLoop_exit,
      searchStep, initialState, middleOf_eq, readAt, greaterThan, slice]

/-- C8, amended: in a state reached from the empty store in which the latest request of key
`k`, at time `t`, was rejected, leaving the stored log `L` with earliest entry `e`: the log has
at least 11 entries; the next request of `k` at a time `now1 ≥ e + 30000 + 1` is admitted
exactly when fewer than 10 entries of `L` are strictly greater than `now1 - 30000`, which is
the case whenever `now1 ≥ t + 30000`; and after that request the log of `k` no longer contains
`e`, nor any timestamp that is not strictly greater than `now1 - 30000`. -/
theorem checkRate_window_expiry {K : Type} [DecidableEq K] (next : Except String Unit)
    (pre post : List (K × Int)) (k : K) (t : Int) (L : List Int) (e now1 : Int)
    (hs : (histOf k (pre ++ (k, t) :: post)).Sorted (fun a b => a ≤ b))
    (hpost : ∀ r ∈ post, r.1 ≠ k)
    (hrej : decision (checkRate next (runLogs next (requestLogs : RequestLogs K) pre) k t) =
      Decision.Reject)
    (hL : runLogs next (requestLogs : RequestLogs K) (pre ++ (k, t) :: post) k = some L)
    (he : L.head? = some e) (hnow : now1 ≥ e + 30000 + 1) :
    11 ≤ L.length ∧
    (decision (checkRate next
        (runLogs next (requestLogs : RequestLogs K) (pre ++ (k, t) :: post)) k now1) =
        Decision.Admit ↔
      (L.filter (fun x => decide (x > now1 - 30000))).length < 10) ∧
    (now1 ≥ t + 30000 →
      decision (checkRate next
        (runLogs next (requestLogs : RequestLogs K) (pre ++ (k, t) :: post)) k now1) =
        Decision.Admit) ∧
    (∃ L1, (checkRate next
        (runLogs next (requestLogs : RequestLogs K) (pre ++ (k, t) :: post)) k now1).requestLogs
          k = some L1 ∧
      e ∈ L ∧ e ∉ L1 ∧ ∀ x ∈ L1, x > now1 - 30000) := by
  have hkinit : (requestLogs : RequestLogs K) k = none := rfl
  have hhist := histOf_latest k pre post t hpost
  rw [hhist] at hs
  -- the stored log is the window of the history, which ends with `t`
  have hwin := runLogs_key next _ k hkinit (pre ++ (k, t) :: post) (by rw [hhist]; exact hs)
  rw [hhist, windowOf_concat, hL, Option.some.injEq] at hwin
  have hp := List.pairwise_append.mp hs
  have hLsorted : L.Sorted (fun a b => a ≤ b) := by
    have hsub : L.Sublist (histOf k pre ++ [t]) := by
      rw [hwin]
      exact List.Sublist.append (List.filter_sublist _) (List.Sublist.refl _)
    exact List.Pairwise.sublist hsub hs
  have hLle : ∀ x ∈ L, x ≤ t := by
    intro x hx
    rw [hwin, List.mem_append] at hx
    rcases hx with hx | hx
    · exact hp.2.2 x (List.mem_filter.mp hx).1 t (List.mem_singleton.mpr rfl)
    · exact le_of_eq (List.mem_singleton.mp hx)
  -- the rejected request had found at least ten survivors
  have hrej1 := decision_after_run next _ k hkinit pre t hs
  rw [hrej] at hrej1
  have hten : limitNoOfRequests ≤
      ((histOf k pre).filter (fun e => decide (e > t - limitTimeMS))).length := by
    by_contra hc
    rw [if_neg hc] at hrej1
    cases hrej1
  have hdec := decision_checkRate_seen next _ k now1 L hL
  have hlog := checkRate_requestLogs_seen next _ k now1 L hL
  rw [findPreviousRequests_eq_filter L _ hLsorted] at hdec hlog
  simp only [limitTimeMS, limitNoOfRequests] at hdec hlog hten
  have hiff : decision (checkRate next
      (runLogs next (requestLogs : RequestLogs K) (pre ++ (k, t) :: post)) k now1) =
      Decision.Admit ↔ (L.filter (fun x => decide (x > now1 - 30000))).length < 10 := by
    rw [hdec]
    by_cases hc : (L.filter (fun x => decide (x > now1 - 30000))).length < 10 <;> simp [hc]
  have heL : e ∈ L := by
    cases L with
    | nil => cases he
    | cons x xs =>
      simp only [List.head?_cons, Option.some.injEq] at he
      rw [he]
      exact List.mem_cons_self e xs
  refine ⟨?_, hiff, ?_,
    ⟨L.filter (fun x => decide (x > now1 - 30000)) ++ [now1], ?_, heL, ?_, ?_⟩⟩
  · rw [hwin, List.length_append, List.length_singleton]
    simp only [limitTimeMS]
    omega
  · intro hlate
    rw [hiff]
    have hnil : L.filter (fun x => decide (x > now1 - 30000)) = [] := by
      rw [List.filter_eq_nil_iff]
      intro x hx
      have := hLle x hx
      simp only [decide_eq_true_eq, gt_iff_lt, not_lt]
      omega
    rw [hnil]
    exact Nat.zero_lt_succ 9
  · rw [hlog]; simp [setLog]
  · intro hmem
    rw [List.mem_append] at hmem
    rcases hmem with hmem | hmem
    · have := (List.mem_filter.mp hmem).2
      simp only [decide_eq_true_eq, gt_iff_lt] at this
      omega
    · have := List.mem_singleton.mp hmem
      omega
  · intro x hx
    rw [List.mem_append] at hx
    rcases hx with hx | hx
    · simpa using (List.mem_filter.mp hx).2
    · have := List.mem_singleton.mp hx
      omega

/-- C8, amended, at twelve requests of key `"A"` at times `0, 1, ..., 11`, the last rejected:
the next request at `30002` finds the nine survivors `3, ..., 11` and is admitted. -/
theorem checkRate_window_expiry_witness :
    decision (checkRate (Except.ok ())
      (runLogs (Except.ok ()) (requestLogs : RequestLogs String)
        ([0, 1, 2, 3, 4, 5, 6, 7, 8, 9, 10].map (fun t => ("A", t)) ++ ("A", 11) :: []))
      "A" 30002) = Decision.Admit :=
  (checkRate_window_expiry (Except.ok ())
    ([0, 1, 2, 3, 4, 5, 6, 7, 8, 9, 10].map (fun t => ("A", t))) [] "A" 11
    [0, 1, 2, 3, 4, 5, 6, 7, 8, 9, 10, 11] 0 30002
    (by simp [histOf])
    (by simp)
    (by simp [runLogs, checkRate, requestLogs, setLog, catchError, decision, limitTimeMS,
      limitNoOfRequests, findPreviousRequests, searchLoop_continue, searchLoop_exit,
      searchStep, initialState, middleOf_eq, readAt, greaterThan, slice])
    (by simp [runLogs, checkRate, requestLogs, setLog, catchError, limitTimeMS,
      limitNoOfRequests, findPreviousRequests, searchLoop_continue, searchLoop_exit,
      searchStep, initialState, middleOf_eq, readAt, greaterThan, slice])
    rfl (by decide)).2.1.mpr (by decide)

/-! ## Further claims about the pruner -/

/-- The survivors of a non-decreasing array are non-decreasing. -/
theorem findPreviousRequests_sorted (arr : List Int) (searchItem : Int)
    (hs : arr.Sorted (fun a b => a ≤ b)) :
    (findPreviousRequests arr searchItem).Sorted (fun a b => a ≤ b) := by
  rw [findPreviousRequests_eq_filter arr searchItem hs]
  exact List.Pairwise.sublist (List.filter_sublist arr) hs

/-- C13: `findPreviousRequests` does not fail at the edges: on the empty sequence it returns
the empty sequence for every cutoff; on a non-empty non-decreasing sequence `S` it returns the
whole of `S` when the cutoff is strictly below every element, and the empty sequence when the
cutoff is greater than or equal to every element. -/
theorem findPreviousRequests_edges :
    (∀ C : Int, findPreviousRequests [] C = []) ∧
    (∀ (S : List Int) (C : Int), S ≠ [] → S.Sorted (fun a b => a ≤ b) →
      (∀ e ∈ S, C < e) → findPreviousRequests S C = S) ∧
    (∀ (S : List Int) (C : Int), S ≠ [] → S.Sorted (fun a b => a ≤ b) →
      (∀ e ∈ S, e ≤ C) → findPreviousRequests S C = []) := by
  refine ⟨?_, ?_, ?_⟩
  · intro C
    rw [findPreviousRequests_eq_filter [] C List.sorted_nil]
    rfl
  · intro S C _ hs hall
    rw [findPreviousRequests_eq_filter S C hs, List.filter_eq_self]
    intro a ha
    simpa using hall a ha
  · intro S C _ hs hall
    rw [findPreviousRequests_eq_filter S C hs, List.filter_eq_nil_iff]
    intro a ha
    have := hall a ha
    simp only [decide_eq_true_eq, gt_iff_lt, not_lt]
    exact this

/-- C13 at `S = [4, 5, 5, 9]`: cutoff `3` keeps everything, cutoff `9` keeps nothing. -/
theorem findPreviousRequests_edges_witness :
    findPreviousRequests [4, 5, 5, 9] 3 = [4, 5, 5, 9] ∧
      findPreviousRequests [4, 5, 5, 9] 9 = [] :=
  ⟨findPreviousRequests_edges.2.1 [4, 5, 5, 9] 3 (by decide) (by decide) (by decide),
    findPreviousRequests_edges.2.2 [4, 5, 5, 9] 9 (by decide) (by decide) (by decide)⟩

/-- C18: for every sequence `S`, sorted or not, and every cutoff `C`, `findPreviousRequests`
returns the suffix of `S` starting at an index `i` with (`i = n` or `S[i] > C`) and (`i = 0` or
`S[i-1] ≤ C`); on an unsorted input this can differ from the elements greater than `C`, as for
`S = [5, 1, 7, 2]` and `C = 3`. -/
theorem findPreviousRequests_unsorted :
    (∀ (S : List Int) (C : Int), ∃ i : Nat, i ≤ S.length ∧
      findPreviousRequests S C = S.drop i ∧
      (i = S.length ∨ ∃ v, S[i]? = some v ∧ v > C) ∧
      (i = 0 ∨ ∃ v, S[i - 1]? = some v ∧ v ≤ C)) ∧
    findPreviousRequests [5, 1, 7, 2] 3 = [7, 2] ∧
    [5, 1, 7, 2].filter (fun e => decide (e > (3 : Int))) = [5, 7] := by
  refine ⟨fun S C => findPreviousRequests_boundary S C, ?_, by decide⟩
  simp [findPreviousRequests, searchLoop_continue, searchLoop_exit, searchStep, initialState,
    middleOf_eq, readAt, greaterThan, slice]

/-- C19: on a non-decreasing sequence pruning composes:
`findPreviousRequests (findPreviousRequests S C1) C2 = findPreviousRequests S (max C1 C2)`;
pruning twice at the same cutoff changes nothing; and for `C1 ≤ C2` the result for `C2` is a
suffix of the result for `C1`. -/
theorem findPreviousRequests_compose (S : List Int) (C1 C2 : Int)
    (hs : S.Sorted (fun a b => a ≤ b)) :
    findPreviousRequests (findPreviousRequests S C1) C2 =
      findPreviousRequests S (max C1 C2) ∧
    findPreviousRequests (findPreviousRequests S C1) C1 = findPreviousRequests S C1 ∧
    (C1 ≤ C2 → findPreviousRequests S C2 <:+ findPreviousRequests S C1) := by
  have hcomp : ∀ D1 D2 : Int, findPreviousRequests (findPreviousRequests S D1) D2 =
      findPreviousRequests S (max D1 D2) := by
    intro D1 D2
    rw [findPreviousRequests_eq_filter _ D2 (findPreviousRequests_sorted S D1 hs),
      findPreviousRequests_eq_filter S D1 hs, findPreviousRequests_eq_filter S _ hs,
      List.filter_filter]
    apply List.filter_congr
    intro e _
    by_cases h1 : e > D1 <;> by_cases h2 : e > D2 <;> simp [h1, h2]
  refine ⟨hcomp C1 C2, ?_, ?_⟩
  · rw [hcomp C1 C1, max_self]
  · intro hle
    have h := hcomp C1 C2
    rw [max_eq_right hle] at h
    obtain ⟨i, _, hdrop, _, _⟩ := findPreviousRequests_boundary (findPreviousRequests S C1) C2
    rw [← h, hdrop]
    exact List.drop_suffix i _

/-- C19 at `S = [1, 2, 3, 3, 4, 5]`, `C1 = 2`, `C2 = 3`: both sides are `[4, 5]`. -/
theorem findPreviousRequests_compose_witness :
    findPreviousRequests (findPreviousRequests [1, 2, 3, 3, 4, 5] 2) 3 =
        findPreviousRequests [1, 2, 3, 3, 4, 5] (max 2 3) ∧
      findPreviousRequests [1, 2, 3, 3, 4, 5] (max 2 3) = [4, 5] :=
  ⟨(findPreviousRequests_compose [1, 2, 3, 3, 4, 5] 2 3 (by decide)).1,
    by simp [findPreviousRequests, searchLoop_continue, searchLoop_exit, searchStep,
      initialState, middleOf_eq, readAt, greaterThan, slice]⟩


/-! ## The number of iterations and the bounds of the search loop -/

/-- The number of iterations when the loop continues. -/
theorem searchIterations_continue (arr : List Int) (searchItem : Int) (s : SearchState)
    (h : s.left ≤ s.right) :
    searchIterations arr searchItem s =
      searchIterations arr searchItem (searchStep arr searchItem s) + 1 := by
  rw [searchIterations, if_pos h]

/-- No iteration is made once `left > right`. -/
theorem searchIterations_exit (arr : List Int) (searchItem : Int) (s : SearchState)
    (h : ¬ s.left ≤ s.right) : searchIterations arr searchItem s = 0 := by
  rw [searchIterations, if_neg h]

/-- Each iteration at least halves the width of the interval `[left, right]`. -/
theorem searchStep_halves (arr : List Int) (searchItem : Int) (s : SearchState)
    (h : s.left ≤ s.right) :
    ((searchStep arr searchItem s).right + 1 - (searchStep arr searchItem s).left).toNat
      ≤ (s.right + 1 - s.left).toNat / 2 := by
  have hm := middleOf_eq s h
  unfold searchStep
  simp only
  split <;> simp only <;> omega

/-- The bound on the number of iterations for an interval of width `m`. -/
theorem log_bound_step (m : Nat) (hm : 1 ≤ m) :
    (if m / 2 = 0 then 0 else Nat.log 2 (m / 2) + 1) + 1 ≤ Nat.log 2 m + 1 := by
  by_cases h2 : 2 ≤ m
  · rw [Nat.log_of_one_lt_of_le (by decide) h2]
    split <;> omega
  · have h1 : m = 1 := by omega
    subst h1
    simp

/-- The loop makes at most `floor (log2 m) + 1` iterations on an interval of width `m ≥ 1`,
and none on an empty interval. -/
theorem searchIterations_le (arr : List Int) (searchItem : Int) (s : SearchState) :
    searchIterations arr searchItem s ≤
      if (s.right + 1 - s.left).toNat = 0 then 0
      else Nat.log 2 (s.right + 1 - s.left).toNat + 1 := by
  by_cases h : s.left ≤ s.right
  · rw [searchIterations_continue arr searchItem s h]
    have ih := searchIterations_le arr searchItem (searchStep arr searchItem s)
    have hhalf := searchStep_halves arr searchItem s h
    have hpos : 1 ≤ (s.right + 1 - s.left).toNat := by omega
    have hstep := log_bound_step _ hpos
    rw [if_neg (by omega)]
    have hmono : (if ((searchStep arr searchItem s).right + 1 -
          (searchStep arr searchItem s).left).toNat = 0 then 0
        else Nat.log 2 ((searchStep arr searchItem s).right + 1 -
          (searchStep arr searchItem s).left).toNat + 1) ≤
        (if (s.right + 1 - s.left).toNat / 2 = 0 then 0
          else Nat.log 2 ((s.right + 1 - s.left).toNat / 2) + 1) := by
      have hlog := @Nat.log_mono_right 2 _ _ hhalf
      split <;> split <;> omega
    omega
  · rw [searchIterations_exit arr searchItem s h]
    exact Nat.zero_le _
termination_by (s.right + 1 - s.left).toNat
decreasing_by exact searchStep_measure arr searchItem s h

/-- The loop is the body iterated `searchIterations` times, and it stops with `left > right`. -/
theorem searchLoop_eq_iterate (arr : List Int) (searchItem : Int) (s : SearchState) :
    searchLoop arr searchItem s =
      Nat.iterate (searchStep arr searchItem) (searchIterations arr searchItem s) s := by
  by_cases h : s.left ≤ s.right
  · rw [searchLoop_continue arr searchItem s h, searchIterations_continue arr searchItem s h,
      Function.iterate_succ_apply]
    exact searchLoop_eq_iterate arr searchItem (searchStep arr searchItem s)
  · rw [searchLoop_exit arr searchItem s h, searchIterations_exit arr searchItem s h]
    rfl
termination_by (s.right + 1 - s.left).toNat
decreasing_by exact searchStep_measure arr searchItem s h

/-- The loop condition holds before each of the iterations that are made, and the search
invariant holds before and after each of them. -/
theorem iterate_searchStep_inv (arr : List Int) (searchItem : Int) (j : Nat) (s : SearchState)
    (hinv : SearchInv arr searchItem s) (hj : j < searchIterations arr searchItem s) :
    SearchInv arr searchItem (Nat.iterate (searchStep arr searchItem) j s) ∧
    (Nat.iterate (searchStep arr searchItem) j s).left ≤
      (Nat.iterate (searchStep arr searchItem) j s).right := by
  induction j generalizing s with
  | zero =>
    refine ⟨hinv, ?_⟩
    by_contra h
    rw [searchIterations_exit arr searchItem s h] at hj
    omega
  | succ j ih =>
    have h : s.left ≤ s.right := by
      by_contra h
      rw [searchIterations_exit arr searchItem s h] at hj
      omega
    rw [searchIterations_continue arr searchItem s h] at hj
    rw [Function.iterate_succ_apply]
    exact ih (searchStep arr searchItem s) (searchStep_inv arr searchItem s hinv h) (by omega)


/-- C16: for every sequence of length `n`, non-decreasing or not, the search loop of
`findPreviousRequests` terminates: it is the body run `searchIterations` times and ends with
`left > right`; it makes no midpoint comparison when `n = 0` and at most
`floor (log2 n) + 1` when `n ≥ 1`. -/
theorem searchLoop_comparisons (S : List Int) (C : Int) :
    searchLoop S C (initialState S) =
      Nat.iterate (searchStep S C) (searchIterations S C (initialState S)) (initialState S) ∧
    ¬ (searchLoop S C (initialState S)).left ≤ (searchLoop S C (initialState S)).right ∧
    (S.length = 0 → searchIterations S C (initialState S) = 0) ∧
    (1 ≤ S.length → searchIterations S C (initialState S) ≤ Nat.log 2 S.length + 1) := by
  have hle := searchIterations_le S C (initialState S)
  have hw : ((initialState S).right + 1 - (initialState S).left).toNat = S.length := by
    show ((S.length : Int) - 1 + 1 - 0).toNat = S.length
    omega
  rw [hw] at hle
  refine ⟨searchLoop_eq_iterate S C (initialState S),
    (searchLoop_inv S C (initialState S) (initialState_inv S C)).2, ?_, ?_⟩
  · intro h0
    rw [if_pos h0] at hle
    omega
  · intro h1
    rw [if_neg (by omega)] at hle
    exact hle

/-- C16 at `S = [1, 2, 3, 4, 5]`, `C = 3`: two comparisons, and `floor (log2 5) + 1 = 3`. -/
theorem searchLoop_comparisons_witness :
    searchIterations [1, 2, 3, 4, 5] 3 (initialState [1, 2, 3, 4, 5]) = 2 ∧
      searchIterations [1, 2, 3, 4, 5] 3 (initialState [1, 2, 3, 4, 5]) ≤
        Nat.log 2 [1, 2, 3, 4, 5].length + 1 :=
  ⟨by simp [searchIterations_continue, searchIterations_exit, searchStep, initialState,
      middleOf_eq, readAt, greaterThan],
    (searchLoop_comparisons [1, 2, 3, 4, 5] 3).2.2.2 (by decide)⟩

/-- C20: for every array of length `n` and every iteration of the search loop (the `j`-th, the
state before it being the body run `j` times from the initial state): the bounds satisfy
`0 ≤ left ≤ middle ≤ right ≤ n - 1`, the read `arr[middle]` is inside the array, and
`leftGreater = right + 1` holds before and after the iteration; and the final slice index
`leftGreater` lies in `[0, n]`. -/
theorem searchLoop_bounds (arr : List Int) (searchItem : Int) :
    (∀ j : Nat, j < searchIterations arr searchItem (initialState arr) →
      0 ≤ (Nat.iterate (searchStep arr searchItem) j (initialState arr)).left ∧
      (Nat.iterate (searchStep arr searchItem) j (initialState arr)).left ≤
        middleOf (Nat.iterate (searchStep arr searchItem) j (initialState arr)) ∧
      middleOf (Nat.iterate (searchStep arr searchItem) j (initialState arr)) ≤
        (Nat.iterate (searchStep arr searchItem) j (initialState arr)).right ∧
      (Nat.iterate (searchStep arr searchItem) j (initialState arr)).right ≤
        (arr.length : Int) - 1 ∧
      (∃ v, readAt arr
        (middleOf (Nat.iterate (searchStep arr searchItem) j (initialState arr))) = some v) ∧
      (Nat.iterate (searchStep arr searchItem) j (initialState arr)).leftGreater =
        (Nat.iterate (searchStep arr searchItem) j (initialState arr)).right + 1 ∧
      (Nat.iterate (searchStep arr searchItem) (j + 1) (initialState arr)).leftGreater =
        (Nat.iterate (searchStep arr searchItem) (j + 1) (initialState arr)).right + 1) ∧
    0 ≤ (searchLoop arr searchItem (initialState arr)).leftGreater ∧
    (searchLoop arr searchItem (initialState arr)).leftGreater ≤ (arr.length : Int) := by
  refine ⟨?_, ?_⟩
  · intro j hj
    obtain ⟨hinv, hguard⟩ :=
      iterate_searchStep_inv arr searchItem j (initialState arr)
        (initialState_inv arr searchItem) hj
    have hnext := searchStep_inv arr searchItem _ hinv hguard
    rw [← Function.iterate_succ_apply' (searchStep arr searchItem) j (initialState arr)]
      at hnext
    obtain ⟨h0, _, h2, h3, _, _⟩ := hinv
    have hm := middleOf_bounds _ hguard
    refine ⟨h0, hm.1, hm.2, by omega, ?_, h3, hnext.2.2.2.1⟩
    exact readAt_of_bounds arr _ (by omega) (by omega)
  · obtain ⟨⟨h0, h1, h2, h3, _, _⟩, _⟩ :=
      searchLoop_inv arr searchItem (initialState arr) (initialState_inv arr searchItem)
    constructor <;> omega

/-- C20 at `arr = [1, 2, 3, 4, 5]`, `searchItem = 3`, second iteration: the state before it is
`left = 3`, `right = 4`, `leftGreater = 5`, and the read is at index `3`. -/
theorem searchLoop_bounds_witness :
    Nat.iterate (searchStep [1, 2, 3, 4, 5] 3) 1 (initialState [1, 2, 3, 4, 5]) =
        { left := 3, right := 4, leftGreater := 5 } ∧
      (Nat.iterate (searchStep [1, 2, 3, 4, 5] 3) 1 (initialState [1, 2, 3, 4, 5])).left ≤
        middleOf (Nat.iterate (searchStep [1, 2, 3, 4, 5] 3) 1 (initialState [1, 2, 3, 4, 5])) :=
  ⟨by simp [Nat.iterate, searchStep, initialState, middleOf_eq, readAt, greaterThan],
    ((searchLoop_bounds [1, 2, 3, 4, 5] 3).1 1
      (by simp [searchIterations_continue, searchIterations_exit, searchStep, initialState,
        middleOf_eq, readAt, greaterThan])).2.1⟩

/-! ## Further claims about the admission decision -/

/-- C11: in a run from the empty store in which the timestamps of each key are non-decreasing,
at the end of each call of `checkRate`, for key `k` at time `now`, the stored log of `k` is the
list, in arrival order, of the timestamps of all requests of `k` so far (the current one
included) that are strictly greater than `now - 30000`. -/
theorem checkRate_log_window {K : Type} [DecidableEq K] (next : Except String Unit)
    (pre post : List (K × Int)) (k : K) (now : Int)
    (hs : ∀ k1 : K, (histOf k1 (pre ++ (k, now) :: post)).Sorted (fun a b => a ≤ b)) :
    (checkRate next (runLogs next (requestLogs : RequestLogs K) pre) k now).requestLogs k =
      some ((histOf k (pre ++ [(k, now)])).filter (fun e => decide (e > now - 30000))) := by
  have hcons : pre ++ (k, now) :: post = (pre ++ [(k, now)]) ++ post := by simp
  have hsk := hs k
  rw [hcons, histOf_append] at hsk
  have hsorted := (List.pairwise_append.mp hsk).1
  have hwin := runLogs_key next (requestLogs : RequestLogs K) k rfl (pre ++ [(k, now)]) hsorted
  rw [runLogs_append] at hwin
  simp only [runLogs] at hwin
  rw [hwin, histOf_append]
  have hone : histOf k [(k, now)] = [now] := by simp [histOf]
  rw [hone, windowOf_concat]
  simp [List.filter_append, limitTimeMS]

/-- C11 at the run `A@0, B@5, A@29999, A@30000, B@7`, after the third call of `"A"`: the
stored log of `"A"` is `[29999, 30000]`. -/
theorem checkRate_log_window_witness :
    (checkRate (Except.ok ())
        (runLogs (Except.ok ()) (requestLogs : RequestLogs String)
          [("A", 0), ("B", 5), ("A", 29999)]) "A" 30000).requestLogs "A" =
      some [29999, 30000] :=
  (checkRate_log_window (Except.ok ()) [("A", 0), ("B", 5), ("A", 29999)] [("B", 7)] "A" 30000
    (by
      intro k1
      by_cases hA : "A" = k1
      · subst hA; simp [histOf]
      · by_cases hB : "B" = k1
        · subst hB; simp [histOf]
        · simp [histOf, hA, hB])).trans
    (by simp [histOf])

/-- C12: with a continuation that returns, a call of `checkRate` does exactly one of two
things: it invokes the continuation once and sends no response (Admit), or it does not invoke
the continuation and sends status 429 with the body
`Number of requests reached limits, please try again later` (Reject). Whatever the
continuation does, an error thrown inside the `try` block ends as a 429 response, not as an
exception of `checkRate`. -/
theorem checkRate_outcome {K : Type} [DecidableEq K] (logs : RequestLogs K) (k : K)
    (now : Int) :
    (((checkRate (Except.ok ()) logs k now).nextCalls = 1 ∧
        (checkRate (Except.ok ()) logs k now).response = none ∧
        decision (checkRate (Except.ok ()) logs k now) = Decision.Admit) ∨
      ((checkRate (Except.ok ()) logs k now).nextCalls = 0 ∧
        (checkRate (Except.ok ()) logs k now).response =
          some ⟨429, "Number of requests reached limits, please try again later"⟩ ∧
        decision (checkRate (Except.ok ()) logs k now) = Decision.Reject)) ∧
    (∀ message : String,
      (checkRate (Except.error message) logs k now).response = some ⟨429, message⟩ ∨
      (checkRate (Except.error message) logs k now).response =
        some ⟨429, "Number of requests reached limits, please try again later"⟩) := by
  refine ⟨?_, ?_⟩
  · unfold checkRate
    cases logs k with
    | none => left; exact ⟨rfl, rfl, rfl⟩
    | some L =>
      simp only
      split
      · left; exact ⟨rfl, rfl, rfl⟩
      · right; exact ⟨rfl, rfl, rfl⟩
  · intro message
    unfold checkRate
    cases logs k with
    | none => left; rfl
    | some L =>
      simp only
      split
      · left; rfl
      · right; rfl

/-- C14: sortedness of the stored logs is kept by `checkRate` under a monotonic clock: if the
stored log of a key is non-decreasing and `now` is at least its last element, the log stored
after the call is non-decreasing; hence, from the empty store and with non-decreasing
timestamps for each key, every stored log is non-decreasing after every run. -/
theorem checkRate_sorted {K : Type} [DecidableEq K] (next : Except String Unit) :
    (∀ (logs : RequestLogs K) (k : K) (L : List Int) (now : Int), logs k = some L →
      L.Sorted (fun a b => a ≤ b) → (∀ l, L.getLast? = some l → l ≤ now) →
      ∃ L1, (checkRate next logs k now).requestLogs k = some L1 ∧
        L1.Sorted (fun a b => a ≤ b)) ∧
    (∀ reqs : List (K × Int), (∀ k : K, (histOf k reqs).Sorted (fun a b => a ≤ b)) →
      ∀ (k : K) (L : List Int), runLogs next (requestLogs : RequestLogs K) reqs k = some L →
        L.Sorted (fun a b => a ≤ b)) := by
  refine ⟨?_, ?_⟩
  · intro logs k L now hL hs hlast
    refine ⟨findPreviousRequests L (now - limitTimeMS) ++ [now], ?_, ?_⟩
    · rw [checkRate_requestLogs_seen next logs k now L hL]
      simp [setLog]
    · have hle : ∀ a ∈ L, a ≤ now := by
        intro a ha
        cases hl : L.getLast? with
        | none => rw [List.getLast?_eq_none_iff.mp hl] at ha; cases ha
        | some l =>
          have hln := hlast l hl
          obtain ⟨ys, hys⟩ := List.getLast?_eq_some_iff.mp hl
          rw [hys] at ha hs
          rcases List.mem_append.mp ha with h1 | h1
          · have := (List.pairwise_append.mp hs).2.2 a h1 l (List.mem_singleton.mpr rfl)
            omega
          · have := List.mem_singleton.mp h1
            omega
      apply List.pairwise_append.mpr
      refine ⟨findPreviousRequests_sorted L _ hs, List.pairwise_singleton _ _, ?_⟩
      intro a ha b hb
      rw [findPreviousRequests_eq_filter L _ hs] at ha
      rw [List.mem_singleton.mp hb]
      exact hle a (List.mem_filter.mp ha).1
  · intro reqs hs k L hL
    rw [runLogs_key next (requestLogs : RequestLogs K) k rfl reqs (hs k)] at hL
    unfold windowOf at hL
    cases hl : (histOf k reqs).getLast? with
    | none => rw [hl] at hL; cases hL
    | some l =>
      rw [hl] at hL
      simp only [Option.some.injEq] at hL
      rw [← hL]
      exact List.Pairwise.sublist (List.filter_sublist _) (hs k)

/-- C14 at the log `[1, 5, 5]` of key `"A"` and `now = 30003`: the stored log becomes
`[5, 5, 30003]`. -/
theorem checkRate_sorted_witness :
    ∃ L1, (checkRate (Except.ok ()) (setLog (requestLogs : RequestLogs String) "A" [1, 5, 5])
        "A" 30003).requestLogs "A" = some L1 ∧ L1.Sorted (fun a b => a ≤ b) :=
  (checkRate_sorted (Except.ok ())).1 (setLog (requestLogs : RequestLogs String) "A" [1, 5, 5])
    "A" [1, 5, 5] 30003 (by simp [setLog]) (by decide) (by simp)

/-- C15: the set of keys in the store never shrinks: after a call of `checkRate`, admitted or
rejected, every key that was in the store is still in it, the key of the call is in it, and
no other key has been added. -/
theorem checkRate_keys {K : Type} [DecidableEq K] (next : Except String Unit)
    (logs : RequestLogs K) (k : K) (now : Int) :
    (∀ k1 : K, (logs k1).isSome = true →
      ((checkRate next logs k now).requestLogs k1).isSome = true) ∧
    ((checkRate next logs k now).requestLogs k).isSome = true ∧
    (∀ k1 : K, k1 ≠ k → (logs k1).isSome = false →
      ((checkRate next logs k now).requestLogs k1).isSome = false) := by
  have hself : ((checkRate next logs k now).requestLogs k).isSome = true := by
    cases hk : logs k with
    | none => rw [checkRate_requestLogs_unseen next logs k now hk]; simp [setLog]
    | some L => rw [checkRate_requestLogs_seen next logs k now L hk]; simp [setLog]
  refine ⟨?_, hself, ?_⟩
  · intro k1 h1
    by_cases hk1 : k1 = k
    · rw [hk1]; exact hself
    · rw [checkRate_requestLogs_other next logs k k1 now hk1]; exact h1
  · intro k1 hk1 h1
    rw [checkRate_requestLogs_other next logs k k1 now hk1]; exact h1

/-- C15 at a store holding only key `"B"`, for a call of `"A"`: `"B"` stays, `"C"` is not
added. -/
theorem checkRate_keys_witness :
    ((checkRate (Except.ok ()) (setLog (requestLogs : RequestLogs String) "B" [1, 2])
        "A" 7).requestLogs "B").isSome = true ∧
    ((checkRate (Except.ok ()) (setLog (requestLogs : RequestLogs String) "B" [1, 2])
        "A" 7).requestLogs "C").isSome = false :=
  ⟨(checkRate_keys (Except.ok ()) (setLog (requestLogs : RequestLogs String) "B" [1, 2])
      "A" 7).1 "B" (by simp [setLog]),
    (checkRate_keys (Except.ok ()) (setLog (requestLogs : RequestLogs String) "B" [1, 2])
      "A" 7).2.2 "C" (by decide) (by simp [setLog, requestLogs])⟩


/-- C17, as stated, fails: for the non-decreasing log of ten entries `0` and `now = 30000`, the
closed interval `[now - 30000, now] = [0, 30000]` holds all ten logged timestamps, but the
survivors count used by `checkRate` is `0`, and the request is admitted. -/
theorem checkRate_closed_window_counterexample :
    List.Sorted (fun a b : Int => a ≤ b) [0, 0, 0, 0, 0, 0, 0, 0, 0, 0] ∧
    ([0, 0, 0, 0, 0, 0, 0, 0, 0, 0].filter
      (fun t : Int => decide (30000 - 30000 ≤ t ∧ t ≤ 30000))).length = 10 ∧
    survivorsCount [0, 0, 0, 0, 0, 0, 0, 0, 0, 0] 30000 = 0 ∧
    decision (checkRate (Except.ok ())
      (setLog (requestLogs : RequestLogs String) "A" [0, 0, 0, 0, 0, 0, 0, 0, 0, 0])
      "A" 30000) = Decision.Admit := by
  refine ⟨by decide, by decide, ?_, ?_⟩
  · simp [survivorsCount, limitTimeMS, findPreviousRequests, searchLoop_continue,
      searchLoop_exit, searchStep, initialState, middleOf_eq, readAt, greaterThan, slice]
  · simp [checkRate, setLog, catchError, decision, limitTimeMS, limitNoOfRequests,
      findPreviousRequests, searchLoop_continue, searchLoop_exit, searchStep, initialState,
      middleOf_eq, readAt, greaterThan, slice]

/-- C17, amended: for a key in the store with a non-decreasing log `L` and every `now`, the
survivors count that `checkRate` compares with the limit is the number of logged timestamps
`t` with `now - 30000 < t`; when no logged timestamp exceeds `now`, it is the count over the
half-open interval `now - 30000 < t ≤ now`. -/
theorem checkRate_open_window {K : Type} [DecidableEq K] (next : Except String Unit)
    (logs : RequestLogs K) (k : K) (L : List Int) (now : Int) (hL : logs k = some L)
    (hs : L.Sorted (fun a b => a ≤ b)) :
    (decision (checkRate next logs k now) = Decision.Admit ↔ survivorsCount L now < 10) ∧
    survivorsCount L now = (L.filter (fun t => decide (now - 30000 < t))).length ∧
    ((∀ t ∈ L, t ≤ now) →
      survivorsCount L now =
        (L.filter (fun t => decide (now - 30000 < t ∧ t ≤ now))).length) := by
  have hcount : survivorsCount L now = (L.filter (fun t => decide (now - 30000 < t))).length := by
    unfold survivorsCount
    rw [findPreviousRequests_eq_filter L _ hs]
    rfl
  refine ⟨?_, hcount, ?_⟩
  · rw [decision_checkRate_seen next logs k now L hL]
    unfold survivorsCount
    simp only [limitNoOfRequests]
    by_cases hc : (findPreviousRequests L (now - limitTimeMS)).length < 10 <;> simp [hc]
  · intro hle
    rw [hcount]
    congr 1
    apply List.filter_congr
    intro t ht
    have := hle t ht
    by_cases h1 : now - 30000 < t <;> simp [h1, this]

/-- C17, amended, at the log `[0, 1, 30000]` of key `"A"` and `now = 30000`: the two entries
`1` and `30000`, those with `0 < t ≤ 30000`, are counted. -/
theorem checkRate_open_window_witness :
    survivorsCount [0, 1, 30000] 30000 = 2 :=
  ((checkRate_open_window (Except.ok ())
    (setLog (requestLogs : RequestLogs String) "A" [0, 1, 30000]) "A" [0, 1, 30000] 30000
    (by simp [setLog]) (by decide)).2.2 (by decide)).trans (by decide)

end Middleware
